import Mathlib

/-!
Verification of the Content Index & Search Engine of the `vscode-search-in-file`
extension (class `TextSearcher`).  Strings are modelled as `List Char`;
JavaScript numbers holding integral values (timestamps, sizes, scores) are
modelled as `Int`; fallible host calls (file stat / read) are modelled as
`Option`-valued oracles.  Each definition translates the correspondingly named
member of the source class; definitions whose names end in `Spec`, `Claim` or
`Amended` instead formalise sentences of the specification, for comparison
with the source translation.
-/

namespace TextSearcher

/-- Model of the JavaScript regular-expression class `\s` as used by the
engine (space, tab and line/page break characters). -/
def isWSChar (c : Char) : Bool :=
  c == ' ' || c == '\t' || c == '\n' || c == '\r' || c == '\x0b' || c == '\x0c'

/-- Model of `String.prototype.toLowerCase`, applied character by character. -/
def lowerStr (s : List Char) : List Char := s.map Char.toLower

/-- The string actually compared under the configured case mode: unchanged
when case-sensitive, lowercased otherwise.  Mirrors the conditionals
`this.caseSensitive ? x : x.toLowerCase()` in `search` and in the two
per-file matchers. -/
def caseFold (cs : Bool) (s : List Char) : List Char := if cs then s else lowerStr s

/-- Model of `String.prototype.trim`. -/
def trimStr (s : List Char) : List Char :=
  ((s.dropWhile isWSChar).reverse.dropWhile isWSChar).reverse

/-- Number of maximal non-whitespace runs; helper for `wordCountOf`. -/
def tokenRuns : Bool → List Char → Nat
  | _, [] => 0
  | inTok, c :: rest =>
    if isWSChar c then tokenRuns false rest
    else (if inTok then 0 else 1) + tokenRuns true rest

/-- Model of `lineText.trim().split(/\s+/).length`: splitting the empty
string yields the single-element array containing the empty string, hence
count 1; otherwise the count of whitespace-separated tokens. -/
def wordCountOf (s : List Char) : Nat :=
  let t := trimStr s
  if t.isEmpty then 1 else tokenRuns false t

/-- Number of newline characters in a string. -/
def countNl (s : List Char) : Nat := s.countP (fun c => c == '\n')

/-- Model of `String.prototype.split('\n')`:
splitting the empty string gives `[[]]`, and every newline opens a new
(possibly empty) segment. -/
def splitNl : List Char → List (List Char)
  | [] => [[]]
  | c :: rest =>
    if c == '\n' then [] :: splitNl rest
    else
      match splitNl rest with
      | [] => [[c]]
      | g :: gs => (c :: g) :: gs

/-- Model of `Array.prototype.join('\n')` on the stored line array. -/
def joinNl : List (List Char) → List Char
  | [] => []
  | [l] => l
  | l :: ls => l ++ '\n' :: joinNl ls

/-- Helper for `lineStartOf`: scans left to right remembering the position
one past the last newline seen so far. -/
def lineStartAux : List Char → Nat → Nat → Nat
  | [], _, best => best
  | c :: rest, pos, best =>
    lineStartAux rest (pos + 1) (if c == '\n' then pos + 1 else best)

/-- Model of `s.lastIndexOf('\n') + 1` (which is `0` when there is no
newline, since `lastIndexOf` returns `-1`). -/
def lineStartOf (s : List Char) : Nat := lineStartAux s 0 0

/-- Model of `.replace(/\r\n|\r|\n/g, '\n')`: every CRLF pair and every
lone CR becomes a single LF. -/
def normalizeNewlines : List Char → List Char
  | [] => []
  | '\r' :: '\n' :: rest => '\n' :: normalizeNewlines rest
  | '\r' :: rest => '\n' :: normalizeNewlines rest
  | c :: rest => c :: normalizeNewlines rest

/-- Model of `s.indexOf(q, i)` for a non-empty needle `q`: the least
`j ≥ i` with `j + q.length ≤ s.length` at which `q` occurs, else `none`.
(The engine never calls this with an empty query: `search` rejects
queries shorter than two characters.)  The `fuel` argument only bounds
the recursion; the caller passes enough for the scan to finish on its
own. -/
def strIndexOfFuel (s q : List Char) : Nat → Nat → Option Nat
  | 0, _ => none
  | fuel + 1, i =>
    if s.length < i + q.length then none
    else if q.isPrefixOf (s.drop i) then some i
    else strIndexOfFuel s q fuel (i + 1)

/-- `s.indexOf(q, i)`: the scan advances at most `s.length + 1 - i` times
before the length guard stops it, so that much fuel never runs out. -/
def strIndexOfFrom (s q : List Char) (i : Nat) : Option Nat :=
  strIndexOfFuel s q (s.length + 1 - i) i

/-- The `while (matchIndex !== -1)` scan loop shared by both matchers:
repeatedly find the next occurrence and resume one character past its
start.  The loop variable is bounded by the text length, so fuel
`s.length + 1` makes the recursion total without changing its meaning. -/
def collectFrom (s q : List Char) : Nat → Nat → List Nat
  | 0, _ => []
  | fuel + 1, i =>
    match strIndexOfFrom s q i with
    | none => []
    | some j => j :: collectFrom s q fuel (j + 1)

/-- All match start offsets reported by the scan loop started at offset 0. -/
def scanOffsets (s q : List Char) : List Nat := collectFrom s q (s.length + 1) 0

/-- Specification-side description of the same set: every offset at which
`q` occurs as a substring of `s`, in increasing order. -/
def occOffsets (s q : List Char) : List Nat :=
  (List.range (s.length + 1)).filter (fun j => q.isPrefixOf (s.drop j))

/-- The first (least) occurrence of `q` in `s`, specification-side. -/
def firstOccurrenceOf (s q : List Char) : Option Nat := (occOffsets s q).head?

/-- An indexed file (interface `FileIndex` of the source, minus the live
`uri` handle, which is represented by its path).  The `content` field of
the source is always stored as the empty string and never read, so it is
not modelled. -/
structure FileIndexM where
  lines : List (List Char)
  lastModified : Int
  uriPath : List Char
  fileName : List Char
  relativePath : List Char
deriving DecidableEq

/-- A search result (interface `SearchResult` of the source).  The
`detail` (highlighted preview) and `type` fields are display-only and
referenced by no claim, so they are not modelled; the `range` is split
into its four 0-based coordinates. -/
structure SearchResult where
  label : List Char
  description : List Char
  uriPath : List Char
  startLine : Nat
  startCol : Nat
  endLine : Nat
  endCol : Nat
  score : Option Int
deriving DecidableEq

/-- Projection of a result onto its range coordinates. -/
def posOf (m : SearchResult) : Nat × Nat × Nat × Nat :=
  (m.startLine, m.startCol, m.endLine, m.endCol)

/-- Projection of a result onto its range coordinates and score. -/
def posScoreOf (m : SearchResult) : Nat × Nat × Nat × Nat × Option Int :=
  (m.startLine, m.startCol, m.endLine, m.endCol, m.score)

/-- Translation of `TextSearcher.calculateScore`.  The source also receives
the match's `range`, but never reads it; the position bonus is computed
from `lowerLine.indexOf(lowerQuery)`, the first case-insensitive
occurrence of the query in the line. -/
def calculateScore (query lineText : List Char) : Int :=
  let lowerQuery := lowerStr query
  let lowerLine := lowerStr lineText
  let posScore : Int :=
    match strIndexOfFrom lowerLine lowerQuery 0 with
    | some 0 => 50 + 30
    | some (j + 1) =>
      match lineText.get? j with
      | some c => if isWSChar c then 50 + 20 else 50
      | none => 50
    | none => 50
  let wcScore := if wordCountOf lineText < 10 then posScore + 10 else posScore
  let isComment :=
    (['/', '/']).isPrefixOf (trimStr lineText) || (['/', '*']).isPrefixOf (trimStr lineText)
  if isComment then wcScore else wcScore + 15

/-- The body of `searchSingleLineInIndex`'s `for` loop over the file's
lines, with the explicit 0-based line counter. -/
def searchLinesFrom (cs : Bool) (fi : FileIndexM) (originalQuery searchQuery : List Char) :
    Nat → List (List Char) → List SearchResult
  | _, [] => []
  | lineIndex, line :: rest =>
    ((scanOffsets (if cs then line else lowerStr line) searchQuery).map (fun matchIndex =>
      { label := fi.fileName ++ ':' :: Nat.toDigits 10 (lineIndex + 1)
        description := fi.relativePath
        uriPath := fi.uriPath
        startLine := lineIndex
        startCol := matchIndex
        endLine := lineIndex
        endCol := matchIndex + originalQuery.length
        score := some (calculateScore originalQuery line) }))
      ++ searchLinesFrom cs fi originalQuery searchQuery (lineIndex + 1) rest

/-- Translation of `TextSearcher.searchSingleLineInIndex` (the `results`
out-parameter becomes the returned list). -/
def searchSingleLineInIndex (cs : Bool) (fi : FileIndexM)
    (originalQuery searchQuery : List Char) : List SearchResult :=
  searchLinesFrom cs fi originalQuery searchQuery 0 fi.lines

/-- Translation of `TextSearcher.searchMultiLineInIndex`. -/
def searchMultiLineInIndex (cs : Bool) (fi : FileIndexM)
    (originalQuery searchQuery : List Char) : List SearchResult :=
  let fullText := joinNl fi.lines
  let searchText := if cs then fullText else lowerStr fullText
  let normalizedSearchQuery := normalizeNewlines searchQuery
  (scanOffsets searchText normalizedSearchQuery).map (fun matchIndex =>
    let beforeMatch := fullText.take matchIndex
    let lineNumber := (splitNl beforeMatch).length
    let lineStartIndex := lineStartOf beforeMatch
    let columnIndex := matchIndex - lineStartIndex
    let matchEnd := matchIndex + normalizedSearchQuery.length
    let afterMatch := fullText.take matchEnd
    let endLineNumber := (splitNl afterMatch).length
    let endLineStartIndex := lineStartOf afterMatch
    let endColumnIndex := matchEnd - endLineStartIndex
    let contextLine := (splitNl fullText).getD (lineNumber - 1) []
    { label := fi.fileName ++ ':' :: Nat.toDigits 10 lineNumber
      description := fi.relativePath
      uriPath := fi.uriPath
      startLine := lineNumber - 1
      startCol := columnIndex
      endLine := endLineNumber - 1
      endCol := endColumnIndex
      score := some (calculateScore originalQuery contextLine + 10) })

/-- Lexicographic comparison by character code; model of
`String.prototype.localeCompare` on the plain ASCII labels the engine
builds. -/
def lexCmp : List Char → List Char → Int
  | [], [] => 0
  | [], _ :: _ => -1
  | _ :: _, [] => 1
  | a :: as, b :: bs => if a < b then -1 else if b < a then 1 else lexCmp as bs

/-- The comparator passed to `results.sort` in `sortAndLimitResults`:
score difference when both scores are defined, label comparison
otherwise. -/
def resultCmp (a b : SearchResult) : Int :=
  match a.score, b.score with
  | some sa, some sb => sb - sa
  | _, _ => lexCmp a.label b.label

/-- Stable insertion used by `sortCmp`: `x` is placed before the first
element it does not have to follow. -/
def insertCmp {α : Type} (cmp : α → α → Int) (x : α) : List α → List α
  | [] => [x]
  | y :: ys => if 0 < cmp x y then y :: insertCmp cmp x ys else x :: y :: ys

/-- Model of `Array.prototype.sort(cmp)`: ECMAScript sorting is stable, so
for a consistent comparator it coincides with stable insertion sort. -/
def sortCmp {α : Type} (cmp : α → α → Int) : List α → List α
  | [] => []
  | x :: xs => insertCmp cmp x (sortCmp cmp xs)

/-- The keys of the `groupedResults` map in first-insertion order (the
distinct owning file paths in order of first appearance): each head
contributes its key and the tail is processed with that key removed.
The `fuel` argument only bounds the recursion (the list shrinks at every
step, so its length is enough fuel). -/
def firstKeysFuel : Nat → List SearchResult → List (List Char)
  | 0, _ => []
  | _, [] => []
  | fuel + 1, r :: rs =>
    r.uriPath :: firstKeysFuel fuel (rs.filter (fun x => !(x.uriPath == r.uriPath)))

/-- Top-level form of `firstKeysFuel`. -/
def firstKeys (s : List SearchResult) : List (List Char) := firstKeysFuel s.length s

/-- The grouping pass of `sortAndLimitResults`: a JavaScript `Map` from
file path to its results, filled by one traversal and then concatenated
in key-insertion order. -/
def groupByFile (s : List SearchResult) : List SearchResult :=
  (firstKeys s).flatMap (fun k => s.filter (fun r => r.uriPath == k))

/-- Translation of `TextSearcher.sortAndLimitResults`. -/
def sortAndLimitResults (results : List SearchResult) : List SearchResult :=
  groupByFile (sortCmp resultCmp results)

/-- Collapse each maximal run of equal adjacent keys to a single key: the
sequence of file-group keys as they appear along a result list.  A result
list is grouped into contiguous per-file blocks exactly when this
sequence has no duplicates. -/
def dedupAdj : List (List Char) → List (List Char)
  | [] => []
  | [a] => [a]
  | a :: b :: rest =>
    if a == b then dedupAdj (b :: rest) else a :: dedupAdj (b :: rest)

/-- Spec-side reading of the claim's emission-order clause: the distinct
keys of a sequence, each listed at its first encounter. -/
def firstEncounters : List (List Char) → List (List Char)
  | [] => []
  | a :: rest => a :: (firstEncounters rest).filter (fun x => !(x == a))

/-- Score of a result, defaulting to 0; used only to state ordering
properties of lists all of whose scores are defined. -/
def scoreD (r : SearchResult) : Int := r.score.getD 0

/-- Pure score-descending comparator; on lists all of whose scores are
defined it agrees with `resultCmp` and is globally transitivity-friendly. -/
def scoreCmp (a b : SearchResult) : Int := scoreD b - scoreD a

/-- `BATCH_SIZE` of the source. -/
def BATCH_SIZE : Nat := 50

/-- The `isMultiLineQuery` test of `search`; `includes('\r\n')` is
subsumed by `includes('\r')`. -/
def isMultiLineQuery (q : List Char) : Bool := q.contains '\n' || q.contains '\r'

/-- Dispatch of `search`'s inner loop to the per-file matcher. -/
def searchFileInIndex (cs multi : Bool) (fi : FileIndexM)
    (originalQuery searchQuery : List Char) : List SearchResult :=
  if multi then searchMultiLineInIndex cs fi originalQuery searchQuery
  else searchSingleLineInIndex cs fi originalQuery searchQuery

/-- The batched scan loop of `search`: before each batch the cancellation
signal is consulted (modelled as a predicate on the loop counter `i`);
an observed abort raises (`Except.error`), otherwise the batch
`entries.slice(i, i + BATCH_SIZE)` is processed and the results
accumulated.  The `fuel` argument only bounds the recursion; the caller
passes enough for the loop to finish on its own. -/
def scanBatchesFuel (cs multi : Bool) (index : List FileIndexM)
    (originalQuery searchQuery : List Char) (sig : Nat → Bool) :
    Nat → Nat → List SearchResult → Except Unit (List SearchResult)
  | 0, _, acc => Except.ok acc
  | fuel + 1, i, acc =>
    if i < index.length then
      if sig i then Except.error ()
      else
        scanBatchesFuel cs multi index originalQuery searchQuery sig fuel (i + BATCH_SIZE)
          (acc ++ ((index.drop i).take BATCH_SIZE).flatMap
            (fun fi => searchFileInIndex cs multi fi originalQuery searchQuery))
    else Except.ok acc

/-- The loop started at `i = 0`; the counter advances by `BATCH_SIZE ≥ 1`
each iteration, so `index.length + 1` fuel never runs out. -/
def scanBatches (cs multi : Bool) (index : List FileIndexM)
    (originalQuery searchQuery : List Char) (sig : Nat → Bool) :
    Except Unit (List SearchResult) :=
  scanBatchesFuel cs multi index originalQuery searchQuery sig (index.length + 1) 0 []

/-- Observable effects of a `search` call on the engine's index machinery:
the freshness gate (`ensureIndexIsUpdated`) and the scan of the index
entries. -/
inductive SearchEff where
  | ensureFresh : SearchEff
  | indexScan : SearchEff
deriving DecidableEq

/-- Translation of `TextSearcher.search` as a function of the already
initialised engine: the short-query early return, the abort check before
the readiness wait (`abortPre`), the freshness gate, the abort check
after it (`abortPost`), the batched scan, and the final ranking.  The
second component records which index machinery the call touched. -/
def search (index : List FileIndexM) (q : List Char) (cs : Bool)
    (abortPre abortPost : Bool) (sig : Nat → Bool) :
    Except Unit (List SearchResult) × List SearchEff :=
  if q.length < 2 then (Except.ok [], [])
  else if abortPre then (Except.error (), [])
  else
    let searchQuery := caseFold cs q
    let multi := isMultiLineQuery q
    if abortPost then (Except.error (), [SearchEff.ensureFresh])
    else
      match scanBatches cs multi index q searchQuery sig with
      | Except.error _ => (Except.error (), [SearchEff.ensureFresh, SearchEff.indexScan])
      | Except.ok rs =>
        (Except.ok (sortAndLimitResults rs), [SearchEff.ensureFresh, SearchEff.indexScan])

/-- The `searchState` record of the engine. -/
structure SearchStateM where
  isReady : Bool
  isSearching : Bool
  lastSearchTime : Int
  pendingSearches : Int
deriving DecidableEq

/-- The initial `searchState` set in the field initialiser. -/
def initialSearchState : SearchStateM :=
  { isReady := false, isSearching := false, lastSearchTime := 0, pendingSearches := 0 }

/-- The mutations the source performs on `searchState`: marking ready at
the end of `initialize`, the updates at the top of `search`'s guarded
region, and the `finally` block run on every completion path. -/
inductive EngineOp where
  | markReady : EngineOp
  | searchBegin : Int → EngineOp
  | searchFinally : EngineOp
deriving DecidableEq

/-- Effect of one state mutation; `searchFinally` performs
`Math.max(0, pendingSearches - 1)`. -/
def applyEngineOp (s : SearchStateM) : EngineOp → SearchStateM
  | EngineOp.markReady => { s with isReady := true }
  | EngineOp.searchBegin t =>
    { s with
      isSearching := true
      pendingSearches := s.pendingSearches + 1
      lastSearchTime := t }
  | EngineOp.searchFinally =>
    { s with isSearching := false, pendingSearches := max 0 (s.pendingSearches - 1) }

/-- The engine state after a sequence of mutations from start-up. -/
def runEngineOps (ops : List EngineOp) : SearchStateM :=
  ops.foldl applyEngineOp initialSearchState

/-- `getSearchState` returns a copy of the state record. -/
def getSearchState (s : SearchStateM) : SearchStateM := s

/-- A cached file record (the `Omit<FileIndex, 'uri'> & { uriPath }` shape
of the `CachedIndex` interface); display fields are not modelled, as in
`FileIndexM`. -/
structure CachedFileM where
  uriPath : List Char
  lastModified : Int
  lines : List (List Char)
deriving DecidableEq

/-- The persisted cache snapshot (`CachedIndex` of the source); the
`stats` field is write-only in the source and not modelled. -/
structure CachedIndexM where
  version : List Char
  workspaceHash : List Char
  lastIndexTime : Int
  fileIndex : List (List Char × CachedFileM)
deriving DecidableEq

/-- `CACHE_VERSION` of the source. -/
def CACHE_VERSION : List Char := ("1.2.0").toList

/-- `MAX_CACHE_AGE` of the source: 7 days in milliseconds. -/
def MAX_CACHE_AGE : Int := 7 * 24 * 60 * 60 * 1000

/-- The entries of a snapshot whose files still stat to the recorded
modification time (a failing stat drops the entry, like the `catch`
with `continue`). -/
def validCacheEntries (cached : CachedIndexM)
    (statMtime : List Char → Option Int) : List (List Char × CachedFileM) :=
  cached.fileIndex.filter (fun pe => statMtime pe.2.uriPath == some pe.2.lastModified)

/-- Translation of `TextSearcher.loadIndexFromCache` for a present
snapshot: the Boolean is the return value (cache usable), the list is the
content of `this.fileIndex` afterwards.  `loadedCount < total * 0.8` is
written with exact rational arithmetic, `5 * loadedCount < 4 * total`,
which agrees with the double-precision original for all realistic entry
counts. -/
def loadIndexFromCache (cached : CachedIndexM) (now : Int) (currentHash : List Char)
    (statMtime : List Char → Option Int) : Bool × List (List Char × CachedFileM) :=
  if !(cached.version == CACHE_VERSION) || !(cached.workspaceHash == currentHash)
      || decide (MAX_CACHE_AGE < now - cached.lastIndexTime) then
    (false, [])
  else
    let loaded := validCacheEntries cached statMtime
    if loaded.length * 5 < cached.fileIndex.length * 4 then (false, loaded)
    else (true, loaded)

/-- The branch `initialize` takes after consulting the cache. -/
inductive InitAction where
  | useCache : InitAction
  | fullRebuild : InitAction
deriving DecidableEq

/-- The cache-or-rebuild decision of `TextSearcher.initialize`: a full
`updateIndex()` build runs exactly when `loadIndexFromCache` returned
`false`. -/
def initChoice (cached : CachedIndexM) (now : Int) (currentHash : List Char)
    (statMtime : List Char → Option Int) : InitAction :=
  if (loadIndexFromCache cached now currentHash statMtime).1 then InitAction.useCache
  else InitAction.fullRebuild

/-- Claim-side usability condition exactly as C5 states it, with a strict
age bound ("its age is under the maximum cache age"). -/
def c5ClaimUsable (cached : CachedIndexM) (now : Int) (currentHash : List Char)
    (statMtime : List Char → Option Int) : Prop :=
  cached.version = CACHE_VERSION ∧ cached.workspaceHash = currentHash ∧
    now - cached.lastIndexTime < MAX_CACHE_AGE ∧
    4 * cached.fileIndex.length ≤ 5 * (validCacheEntries cached statMtime).length

/-- Result of `vscode.workspace.fs.stat`: modification time and size. -/
structure FileStatM where
  mtime : Int
  size : Int
deriving DecidableEq

/-- A candidate file as the incremental update sees it: its path, the
outcome of statting it (`none` = stat threw) and the outcome of reading
it (`none` = read threw). -/
structure WorkspaceFileM where
  path : List Char
  stat : Option FileStatM
  content : Option (List Char)
deriving DecidableEq

/-- An in-memory index entry as (re)built by `indexSingleFile` (display
fields not modelled, as in `FileIndexM`). -/
structure IndexEntryM where
  lines : List (List Char)
  lastModified : Int
deriving DecidableEq

/-- `MAX_FILE_SIZE` of the source: 1 MiB. -/
def MAX_FILE_SIZE : Int := 1024 * 1024

/-- Association-list model of the JavaScript `Map` backing `fileIndex`:
lookup by key. -/
def lookupA {β : Type} : List (List Char × β) → List Char → Option β
  | [], _ => none
  | pe :: rest, p => if pe.1 == p then some pe.2 else lookupA rest p

/-- `Map.set`: replace in place if the key is present, append otherwise. -/
def setA {β : Type} : List (List Char × β) → List Char → β → List (List Char × β)
  | [], p, v => [(p, v)]
  | pe :: rest, p, v => if pe.1 == p then (p, v) :: rest else pe :: setA rest p v

/-- Translation of `TextSearcher.indexSingleFile`: oversized files are
skipped silently, a failing read is swallowed, otherwise the entry is
stored with the file's line split and stat time. -/
def indexSingleFile (idx : List (List Char × IndexEntryM)) (w : WorkspaceFileM)
    (st : FileStatM) : List (List Char × IndexEntryM) :=
  if MAX_FILE_SIZE < st.size then idx
  else
    match w.content with
    | none => idx
    | some content => setA idx w.path { lines := splitNl content, lastModified := st.mtime }

/-- One iteration of `performIncrementalUpdate`'s candidate loop, carrying
the index and the `newFiles` / `updatedFiles` counters. -/
def incrementalStep (acc : List (List Char × IndexEntryM) × Nat × Nat)
    (w : WorkspaceFileM) : List (List Char × IndexEntryM) × Nat × Nat :=
  match w.stat with
  | none => acc
  | some st =>
    match lookupA acc.1 w.path with
    | none => (indexSingleFile acc.1 w st, acc.2.1 + 1, acc.2.2)
    | some e =>
      if e.lastModified < st.mtime then (indexSingleFile acc.1 w st, acc.2.1, acc.2.2 + 1)
      else acc

/-- Outcome of one incremental update run. -/
structure IncrementalResult where
  index : List (List Char × IndexEntryM)
  newFiles : Nat
  updatedFiles : Nat
  removedFiles : Nat
  savedToCache : Bool
deriving DecidableEq

/-- Translation of `TextSearcher.performIncrementalUpdate` on a live
(non-disposed) engine, as a function of the current index and the
enumerated, extension-filtered candidate files (`textFiles`).
`savedToCache` records whether `saveIndexToCache` is invoked. -/
def performIncrementalUpdate (idx0 : List (List Char × IndexEntryM))
    (textFiles : List WorkspaceFileM) : IncrementalResult :=
  let folded := textFiles.foldl incrementalStep (idx0, 0, 0)
  let currentPaths := textFiles.map (fun w => w.path)
  let removed := folded.1.filter (fun pe => !(currentPaths.contains pe.1))
  { index := folded.1.filter (fun pe => currentPaths.contains pe.1)
    newFiles := folded.2.1
    updatedFiles := folded.2.2
    removedFiles := removed.length
    savedToCache := decide (0 < folded.2.1) || decide (0 < folded.2.2)
      || decide (0 < removed.length) }

/-- Amended-claim-side description of what one candidate does to its own
index slot, given the slot's previous value: a missing or stale entry is
(re)built unless the file is oversized or unreadable, in which case a
missing entry stays missing and a stale entry is kept. -/
def candidateLookupSpec (old : Option IndexEntryM) (w : WorkspaceFileM) :
    Option IndexEntryM :=
  match w.stat with
  | none => old
  | some st =>
    match old with
    | none =>
      if MAX_FILE_SIZE < st.size then none
      else
        match w.content with
        | none => none
        | some content => some { lines := splitNl content, lastModified := st.mtime }
    | some e =>
      if e.lastModified < st.mtime then
        if MAX_FILE_SIZE < st.size then some e
        else
          match w.content with
          | none => some e
          | some content => some { lines := splitNl content, lastModified := st.mtime }
      else some e

/-- Amended-claim-side description of the whole run: a path enumerated as
a candidate ends up as `candidateLookupSpec` of its old slot; a path not
enumerated is removed. -/
def incrementalLookupSpec (idx0 : List (List Char × IndexEntryM))
    (files : List WorkspaceFileM) (p : List Char) : Option IndexEntryM :=
  match files.find? (fun w => w.path == p) with
  | some w => candidateLookupSpec (lookupA idx0 p) w
  | none => none

/-- A candidate that enters the claim's "new"/"updated" branch (whether or
not the entry is then actually written): its stat succeeded and its path
is absent from, or stale in, the index. -/
def wantsReindex (idx0 : List (List Char × IndexEntryM)) (w : WorkspaceFileM) : Bool :=
  match w.stat with
  | none => false
  | some st =>
    match lookupA idx0 w.path with
    | none => true
    | some e => decide (e.lastModified < st.mtime)

/-- Claim-side reading of C6's persistence sentence at a given input: the
cache is written iff the run actually changed the index.  (`savedToCache`
is compared against a change of the association list; additions append,
updates replace an entry with one carrying a strictly newer timestamp,
and removals delete, so any actual add/update/remove changes the list.) -/
def c6ClaimPersist (idx0 : List (List Char × IndexEntryM))
    (files : List WorkspaceFileM) : Prop :=
  (performIncrementalUpdate idx0 files).savedToCache = true ↔
    (performIncrementalUpdate idx0 files).index ≠ idx0

/-- `INDEX_CLEANUP_INTERVAL` of the source: 5 minutes in milliseconds. -/
def INDEX_CLEANUP_INTERVAL : Int := 300000

/-- `MAX_INDEX_SIZE` of the source. -/
def MAX_INDEX_SIZE : Nat := 8000

/-- The comparator `(a, b) => a.lastModified - b.lastModified` used by
`cleanupOldEntries`. -/
def mtimeCmp (a b : List Char × IndexEntryM) : Int :=
  a.2.lastModified - b.2.lastModified

/-- Translation of `TextSearcher.cleanupOldEntries`: inside the cooldown
interval nothing happens; otherwise the entries are sorted by ascending
`lastModified` and the first `Math.floor(length * 0.2)` (exactly
`length / 5`) keys are deleted from the map, the remaining entries
keeping their original order.  Returns the new index and the new
`lastCleanupTime`. -/
def cleanupOldEntries (idx : List (List Char × IndexEntryM)) (now lastCleanupTime : Int) :
    List (List Char × IndexEntryM) × Int :=
  if now - lastCleanupTime < INDEX_CLEANUP_INTERVAL then (idx, lastCleanupTime)
  else
    let entries := sortCmp mtimeCmp idx
    let removeKeys := (entries.take (idx.length / 5)).map Prod.fst
    (idx.filter (fun pe => !(removeKeys.contains pe.1)), now)

/-- The guard in `indexBatch`: eviction is attempted only when the index
being built exceeds `MAX_INDEX_SIZE`. -/
def indexBatchCleanupCheck (idx : List (List Char × IndexEntryM))
    (now lastCleanupTime : Int) : List (List Char × IndexEntryM) × Int :=
  if MAX_INDEX_SIZE < idx.length then cleanupOldEntries idx now lastCleanupTime
  else (idx, lastCleanupTime)

/-- Claim-side (C1) list of reported positions: for every line, every
offset at which the case-folded query occurs in the case-folded line, as
a 0-based `(startLine, startCol, endLine, endCol)` with
`endCol = startCol + query.length`. -/
def singleLinePositionsFrom (cs : Bool) (q : List Char) :
    Nat → List (List Char) → List (Nat × Nat × Nat × Nat)
  | _, [] => []
  | li, line :: rest =>
    ((occOffsets (caseFold cs line) (caseFold cs q)).map
      (fun j => (li, j, li, j + q.length)))
      ++ singleLinePositionsFrom cs q (li + 1) rest

/-- Top-level form of `singleLinePositionsFrom`. -/
def singleLinePositions (cs : Bool) (q : List Char) (lines : List (List Char)) :
    List (Nat × Nat × Nat × Nat) :=
  singleLinePositionsFrom cs q 0 lines

/-- Claim-side (C2) comparator as the claim states the ordering: score
descending with ties broken by lexicographic label comparison. -/
def c2ClaimCmp (a b : SearchResult) : Int :=
  match a.score, b.score with
  | some sa, some sb => if sa == sb then lexCmp a.label b.label else sb - sa
  | _, _ => lexCmp a.label b.label

/-- Claim-side (C2) pipeline: sort by the claimed comparator, then group
exactly as the engine does. -/
def c2ClaimPipeline (results : List SearchResult) : List SearchResult :=
  groupByFile (sortCmp c2ClaimCmp results)

/-- Claim-side (C3) score formula, computed from the reported match's own
start column. -/
def c3ClaimScore (query lineText : List Char) (matchCol : Nat) : Int :=
  let posBonus : Int :=
    if matchCol == 0 then 30
    else
      match lineText.get? (matchCol - 1) with
      | some c => if isWSChar c then 20 else 0
      | none => 0
  let wcBonus : Int := if wordCountOf lineText < 10 then 10 else 0
  let commentBonus : Int :=
    if (['/', '/']).isPrefixOf (trimStr lineText)
        || (['/', '*']).isPrefixOf (trimStr lineText) then 0 else 15
  50 + posBonus + wcBonus + commentBonus

/-- C3 as stated, at one search call: every reported match carries the
claimed per-position score. -/
def c3ClaimHolds (cs : Bool) (fi : FileIndexM) (q : List Char) : Prop :=
  ∀ m ∈ searchSingleLineInIndex cs fi q (caseFold cs q),
    m.score = some (c3ClaimScore q (fi.lines.getD m.startLine []) m.startCol)

/-- Amended-claim-side (C3) score formula: the position bonus is judged at
the first case-insensitive occurrence of the query in the line (the same
for every match on the line), not at the match's own column. -/
def c3AmendedScore (query lineText : List Char) : Int :=
  let lowerQuery := lowerStr query
  let lowerLine := lowerStr lineText
  let posBonus : Int :=
    match firstOccurrenceOf lowerLine lowerQuery with
    | some 0 => 30
    | some (j + 1) =>
      match lineText.get? j with
      | some c => if isWSChar c then 20 else 0
      | none => 0
    | none => 0
  let wcBonus : Int := if wordCountOf lineText < 10 then 10 else 0
  let commentBonus : Int :=
    if (['/', '/']).isPrefixOf (trimStr lineText)
        || (['/', '*']).isPrefixOf (trimStr lineText) then 0 else 15
  50 + posBonus + wcBonus + commentBonus

/-- Amended-claim-side (C4) positions and scores: the query (only) is
newline-normalized, the file text is the stored lines rejoined with a
single LF, the scan reports every occurrence, the 0-based start and end
lines equal the number of newline characters before the match start and
end, columns are offsets from the last newline before each position, and
the score is the context line's single-line score plus 10. -/
def multiLinePositionsSpec (cs : Bool) (lines : List (List Char)) (q : List Char) :
    List (Nat × Nat × Nat × Nat × Option Int) :=
  let fullText := joinNl lines
  let searchText := caseFold cs fullText
  let nq := normalizeNewlines (caseFold cs q)
  (occOffsets searchText nq).map (fun j =>
    let sLine := countNl (fullText.take j)
    let sCol := j - lineStartOf (fullText.take j)
    let eLine := countNl (fullText.take (j + nq.length))
    let eCol := (j + nq.length) - lineStartOf (fullText.take (j + nq.length))
    let ctx := (splitNl fullText).getD sLine []
    (sLine, sCol, eLine, eCol, some (calculateScore q ctx + 10)))

/-- Claim-side (C4) positions as C4 literally states them: line breaks
normalized in the file's reconstructed text as well as in the query. -/
def c4ClaimPositions (cs : Bool) (lines : List (List Char)) (q : List Char) :
    List (Nat × Nat × Nat × Nat) :=
  let fullText := normalizeNewlines (joinNl lines)
  let searchText := caseFold cs fullText
  let nq := normalizeNewlines (caseFold cs q)
  (occOffsets searchText nq).map (fun j =>
    (countNl (fullText.take j), j - lineStartOf (fullText.take j),
      countNl (fullText.take (j + nq.length)),
      (j + nq.length) - lineStartOf (fullText.take (j + nq.length))))

/-- Concrete indexed file used by the C1 witness (a single line "aaaa"). -/
def c1ExampleFi : FileIndexM :=
  { lines := [("aaaa").toList]
    lastModified := 0
    uriPath := ("/w/a.txt").toList
    fileName := ("a.txt").toList
    relativePath := ("a.txt").toList }

/-- Concrete equal-score results in two files whose labels are in
reverse lexicographic order; input for the C2 counterexample. -/
def c2ResA : SearchResult :=
  { label := ("b.txt:1").toList
    description := ("b.txt").toList
    uriPath := ("/w/b.txt").toList
    startLine := 0
    startCol := 0
    endLine := 0
    endCol := 2
    score := some 75 }

/-- Second result for the C2 counterexample; same score, smaller label. -/
def c2ResB : SearchResult :=
  { label := ("a.txt:1").toList
    description := ("a.txt").toList
    uriPath := ("/w/a.txt").toList
    startLine := 0
    startCol := 0
    endLine := 0
    endCol := 2
    score := some 75 }

/-- Concrete indexed file for the C3 counterexample: the single line
"xaa aa" contains the query "aa" at columns 1 and 4; the occurrence at
column 4 is preceded by a space, the first occurrence (column 1) is not. -/
def c3ExampleFi : FileIndexM :=
  { lines := [("xaa aa").toList]
    lastModified := 0
    uriPath := ("/w/c.txt").toList
    fileName := ("c.txt").toList
    relativePath := ("c.txt").toList }

/-- Concrete indexed file for the C4 amendment witness: the stored lines
of a file whose raw LF text is "x\nline1\nline2\ny". -/
def c4ExampleFi : FileIndexM :=
  { lines := [("x").toList, ("line1").toList, ("line2").toList, ("y").toList]
    lastModified := 0
    uriPath := ("/w/d.txt").toList
    fileName := ("d.txt").toList
    relativePath := ("d.txt").toList }

/-- Concrete indexed file for the C4 counterexample: the stored lines of a
file whose raw CRLF text is "a\r\nb" (splitting on LF leaves the CR at
the end of the first stored line). -/
def c4CrlfFi : FileIndexM :=
  { lines := [("a\r").toList, ("b").toList]
    lastModified := 0
    uriPath := ("/w/e.txt").toList
    fileName := ("e.txt").toList
    relativePath := ("e.txt").toList }

/-- Concrete snapshot for the C5 counterexample: current version, matching
fingerprint, one entry that still stat-matches, and an age of exactly
`MAX_CACHE_AGE`. -/
def c5ExampleCache : CachedIndexM :=
  { version := CACHE_VERSION
    workspaceHash := ("w1hash").toList
    lastIndexTime := 0
    fileIndex := [(("/w/a.txt").toList,
      { uriPath := ("/w/a.txt").toList, lastModified := 7, lines := [[]] })] }

/-- Concrete stat oracle for the C5 counterexample: every file stats to
modification time 7. -/
def c5ExampleStat : List Char → Option Int := fun _ => some 7

/-- Concrete oversized candidate for the C6 counterexample: its stat
succeeds with a size just over `MAX_FILE_SIZE`, so `indexSingleFile`
skips it, yet the candidate loop still counts it as new. -/
def c6BigFile : WorkspaceFileM :=
  { path := ("big.bin").toList
    stat := some { mtime := 1, size := 1048577 }
    content := some [] }

end TextSearcher

namespace TextSearcher

/-! ## Characterisation of the repeated-`indexOf` scan -/

theorem strIndexOfFuel_some_facts (s q : List Char) (j : Nat) :
    ∀ fuel i, strIndexOfFuel s q fuel i = some j →
      i ≤ j ∧ j + q.length ≤ s.length ∧ q.isPrefixOf (s.drop j) = true ∧
        ∀ k, i ≤ k → k < j → q.isPrefixOf (s.drop k) = false := by
  intro fuel
  induction fuel with
  | zero =>
    intro i h
    cases h
  | succ fuel ih =>
    intro i h
    rw [strIndexOfFuel] at h
    by_cases hlt : s.length < i + q.length
    · rw [if_pos hlt] at h
      cases h
    · rw [if_neg hlt] at h
      by_cases hpre : q.isPrefixOf (s.drop i) = true
      · rw [if_pos hpre] at h
        cases h
        refine ⟨Nat.le_refl _, by omega, hpre, ?_⟩
        intro k hk1 hk2
        omega
      · rw [if_neg hpre] at h
        obtain ⟨h1, h2, h3, h4⟩ := ih (i + 1) h
        refine ⟨by omega, h2, h3, ?_⟩
        intro k hk1 hk2
        rcases Nat.eq_or_lt_of_le hk1 with rfl | hlt2
        · rw [Bool.not_eq_true] at hpre
          exact hpre
        · exact h4 k hlt2 hk2

theorem strIndexOfFuel_none_facts (s q : List Char) :
    ∀ fuel i, s.length + 1 ≤ fuel + i → strIndexOfFuel s q fuel i = none →
      ∀ k, i ≤ k → k + q.length ≤ s.length → q.isPrefixOf (s.drop k) = false := by
  intro fuel
  induction fuel with
  | zero =>
    intro i hfi h k hk1 hk2
    omega
  | succ fuel ih =>
    intro i hfi h
    rw [strIndexOfFuel] at h
    by_cases hlt : s.length < i + q.length
    · intro k hk1 hk2
      omega
    · rw [if_neg hlt] at h
      by_cases hpre : q.isPrefixOf (s.drop i) = true
      · rw [if_pos hpre] at h
        cases h
      · rw [if_neg hpre] at h
        intro k hk1 hk2
        rcases Nat.eq_or_lt_of_le hk1 with rfl | hlt2
        · rw [Bool.not_eq_true] at hpre
          exact hpre
        · exact ih (i + 1) (by omega) h k hlt2 hk2

theorem strIndexOfFrom_some_facts (s q : List Char) (j : Nat) :
    ∀ i, strIndexOfFrom s q i = some j →
      i ≤ j ∧ j + q.length ≤ s.length ∧ q.isPrefixOf (s.drop j) = true ∧
        ∀ k, i ≤ k → k < j → q.isPrefixOf (s.drop k) = false := by
  intro i h
  exact strIndexOfFuel_some_facts s q j (s.length + 1 - i) i h

theorem strIndexOfFrom_none_facts (s q : List Char) :
    ∀ i, strIndexOfFrom s q i = none →
      ∀ k, i ≤ k → k + q.length ≤ s.length → q.isPrefixOf (s.drop k) = false := by
  intro i h
  exact strIndexOfFuel_none_facts s q (s.length + 1 - i) i (by omega) h

theorem filter_range_peel (p1 p2 : Nat → Bool) :
    ∀ (n j : Nat), j < n → p1 j = true →
    (∀ k, k < j → p1 k = false) → (∀ k, k ≤ j → p2 k = false) →
    (∀ k, j < k → p1 k = p2 k) →
    (List.range n).filter p1 = j :: (List.range n).filter p2 := by
  intro n
  induction n with
  | zero =>
    intro j hj
    omega
  | succ m ih =>
    intro j hj hpj hlow hlow2 hhigh
    rw [List.range_succ, List.filter_append, List.filter_append]
    by_cases hcase : j < m
    · rw [ih j hcase hpj hlow hlow2 hhigh]
      have hm : List.filter p1 [m] = List.filter p2 [m] := by
        simp only [List.filter, hhigh m (by omega)]
      rw [hm, List.cons_append]
    · have hjm : j = m := by omega
      subst hjm
      have h1 : (List.range j).filter p1 = [] := by
        rw [List.filter_eq_nil_iff]
        intro a ha
        rw [List.mem_range] at ha
        simp [hlow a ha]
      have h2 : (List.range j).filter p2 = [] := by
        rw [List.filter_eq_nil_iff]
        intro a ha
        rw [List.mem_range] at ha
        simp [hlow2 a (by omega)]
      rw [h1, h2]
      simp only [List.filter, hpj, hlow2 j (Nat.le_refl _), List.nil_append]

theorem collectFrom_eq_filter (s q : List Char) :
    ∀ (fuel i : Nat), s.length + 1 ≤ fuel + i →
    collectFrom s q fuel i =
      (List.range (s.length + 1)).filter
        (fun k => decide (i ≤ k) && q.isPrefixOf (s.drop k)) := by
  intro fuel
  induction fuel with
  | zero =>
    intro i hi
    rw [collectFrom]
    symm
    rw [List.filter_eq_nil_iff]
    intro a ha
    rw [List.mem_range] at ha
    simp only [Bool.and_eq_true, decide_eq_true_eq, not_and]
    intro h1
    omega
  | succ fuel ih =>
    intro i hi
    cases hm : strIndexOfFrom s q i with
    | none =>
      simp only [collectFrom, hm]
      symm
      rw [List.filter_eq_nil_iff]
      intro a ha
      rw [List.mem_range] at ha
      have hn := strIndexOfFrom_none_facts s q i hm
      simp only [Bool.and_eq_true, decide_eq_true_eq, not_and]
      intro hia
      by_cases hble : a + q.length ≤ s.length
      · simp [hn a hia hble]
      · intro hpre
        rw [List.isPrefixOf_iff_prefix] at hpre
        have hlen := hpre.length_le
        rw [List.length_drop] at hlen
        omega
    | some j =>
      obtain ⟨h1, h2, h3, h4⟩ := strIndexOfFrom_some_facts s q j i hm
      simp only [collectFrom, hm]
      rw [ih (j + 1) (by omega)]
      symm
      apply filter_range_peel
      · omega
      · simp only [Bool.and_eq_true, decide_eq_true_eq]
        exact ⟨h1, h3⟩
      · intro k hk
        by_cases hik : i ≤ k
        · simp [h4 k hik hk]
        · simp
          omega
      · intro k hk
        simp
        omega
      · intro k hk
        have hik : decide (i ≤ k) = true := by simp; omega
        have hjk : decide (j + 1 ≤ k) = true := by simp; omega
        rw [hik, hjk]

theorem scanOffsets_eq_occOffsets (s q : List Char) : scanOffsets s q = occOffsets s q := by
  rw [scanOffsets, collectFrom_eq_filter s q (s.length + 1) 0 (by omega), occOffsets]
  apply List.filter_congr
  intro a ha
  simp

theorem strIndexOfFrom_zero (s q : List Char) :
    strIndexOfFrom s q 0 = firstOccurrenceOf s q := by
  rw [firstOccurrenceOf, occOffsets]
  cases hm : strIndexOfFrom s q 0 with
  | none =>
    symm
    rw [List.head?_eq_none_iff, List.filter_eq_nil_iff]
    intro a ha
    rw [List.mem_range] at ha
    have hn := strIndexOfFrom_none_facts s q 0 hm
    by_cases hble : a + q.length ≤ s.length
    · simp [hn a (Nat.zero_le _) hble]
    · intro hpre
      rw [List.isPrefixOf_iff_prefix] at hpre
      have hlen := hpre.length_le
      rw [List.length_drop] at hlen
      omega
  | some j =>
    obtain ⟨h1, h2, h3, h4⟩ := strIndexOfFrom_some_facts s q j 0 hm
    rw [filter_range_peel (fun k => q.isPrefixOf (s.drop k))
      (fun k => decide (j + 1 ≤ k) && q.isPrefixOf (s.drop k)) (s.length + 1) j
      (by omega) h3 (fun k hk => h4 k (Nat.zero_le _) hk)
      (fun k hk => by simp; omega) (fun k hk => by simp; omega)]
    rfl

/-! ## C1: single-line matching reports every (overlapping) occurrence -/

theorem searchLinesFrom_posOf (cs : Bool) (fi : FileIndexM) (q : List Char) :
    ∀ (lines : List (List Char)) (li : Nat),
    (searchLinesFrom cs fi q (caseFold cs q) li lines).map posOf =
      singleLinePositionsFrom cs q li lines := by
  intro lines
  induction lines with
  | nil =>
    intro li
    rfl
  | cons line rest ih =>
    intro li
    rw [searchLinesFrom, singleLinePositionsFrom, List.map_append, List.map_map, ih (li + 1)]
    congr 1
    have hline : (if cs then line else lowerStr line) = caseFold cs line := by
      rw [caseFold]
    rw [hline, scanOffsets_eq_occOffsets]
    apply List.map_congr_left
    intro j hj
    rfl

/-- C1: for every indexed file and single-line query of length at least 2,
the single-line matcher reports, per line, one match for every start
offset at which the case-folded query occurs in the case-folded line —
including overlapping occurrences, since the scan resumes one character
past each match start — and every match carries 0-based line/column with
end column = start column + query length.  (`singleLinePositions`
enumerates exactly the occurrence offsets of each line, in order.) -/
theorem claim1_single_line_overlap (cs : Bool) (fi : FileIndexM) (q : List Char)
    (hq : 2 ≤ q.length) :
    (searchSingleLineInIndex cs fi q (caseFold cs q)).map posOf =
      singleLinePositions cs q fi.lines := by
  rw [searchSingleLineInIndex, singleLinePositions]
  exact searchLinesFrom_posOf cs fi q fi.lines 0

/-- Witness for C1 at the claim's own example: searching "aa" in the
single line "aaaa" yields exactly three matches, at columns 0, 1 and 2,
each with end column = start column + 2. -/
theorem claim1_single_line_overlap_witness :
    2 ≤ (("aa").toList).length ∧
      (searchSingleLineInIndex true c1ExampleFi (("aa").toList)
          (caseFold true (("aa").toList))).map posOf =
        [(0, 0, 0, 2), (0, 1, 0, 3), (0, 2, 0, 4)] :=
  ⟨by decide, by
    rw [claim1_single_line_overlap true c1ExampleFi (("aa").toList) (by decide)]
    decide⟩

end TextSearcher

namespace TextSearcher

/-! ## C3: scoring -/

/-- Every result emitted by the single-line matcher carries the score of
its own line, computed by `calculateScore` from the original query —
independently of the match's column. -/
theorem searchLinesFrom_score (cs : Bool) (fi : FileIndexM) (oq sq : List Char) :
    ∀ (lines : List (List Char)) (li : Nat) (m : SearchResult),
      m ∈ searchLinesFrom cs fi oq sq li lines →
      li ≤ m.startLine ∧ m.score = some (calculateScore oq (lines.getD (m.startLine - li) [])) := by
  intro lines
  induction lines with
  | nil =>
    intro li m hm
    rw [searchLinesFrom] at hm
    cases hm
  | cons line rest ih =>
    intro li m hm
    rw [searchLinesFrom, List.mem_append] at hm
    rcases hm with hm | hm
    · rw [List.mem_map] at hm
      obtain ⟨j, hj, rfl⟩ := hm
      refine ⟨Nat.le_refl _, ?_⟩
      simp [Nat.sub_self]
    · obtain ⟨h1, h2⟩ := ih (li + 1) m hm
      refine ⟨by omega, ?_⟩
      rw [h2]
      have hidx : m.startLine - li = (m.startLine - (li + 1)) + 1 := by omega
      rw [hidx, List.getD_cons_succ]

/-- C3 counterexample: in the line "xaa aa" with query "aa", the match
reported at column 4 is preceded by a space, so the claim's formula
assigns it 50+20+10+15 = 95; the code computes the position bonus from
the first occurrence of the query in the line (column 1, preceded by
the non-space character 'x') and assigns 50+0+10+15 = 75 to every match
on the line.  Hence the claim's per-match formula is false on the code. -/
theorem claim3_counterexample : ¬ c3ClaimHolds true c3ExampleFi (("aa").toList) := by
  unfold c3ClaimHolds
  decide

/-- C3 (amended): the score of a match is 50, plus 30 if the *first
case-insensitive occurrence* of the query in the line starts at column 0,
else plus 20 if the character before that first occurrence is whitespace;
plus 10 if the line has fewer than 10 whitespace-separated tokens; plus
15 if the trimmed line does not start with a comment marker.  Every match
on a line receives this same score, regardless of its own column. -/
theorem claim3_score_amended :
    (∀ query lineText, calculateScore query lineText = c3AmendedScore query lineText)
    ∧ ∀ (cs : Bool) (fi : FileIndexM) (q : List Char),
        ∀ m ∈ searchSingleLineInIndex cs fi q (caseFold cs q),
          m.score = some (calculateScore q (fi.lines.getD m.startLine [])) := by
  constructor
  · intro query lineText
    simp only [calculateScore, c3AmendedScore]
    rw [strIndexOfFrom_zero]
    cases hf : firstOccurrenceOf (lowerStr lineText) (lowerStr query) with
    | none =>
      simp only
      split_ifs <;> omega
    | some n =>
      cases n with
      | zero =>
        simp only
        split_ifs <;> omega
      | succ j =>
        simp only
        cases hget : lineText.get? j with
        | none =>
          simp only
          split_ifs <;> omega
        | some c =>
          simp only
          split_ifs <;> omega
  · intro cs fi q m hm
    have h := searchLinesFrom_score cs fi q (caseFold cs q) fi.lines 0 m hm
    rw [Nat.sub_zero] at h
    exact h.2

/-- Witness for the amended C3 at a concrete line and query. -/
theorem claim3_score_amended_witness :
    calculateScore (("aa").toList) (("xaa aa").toList) =
      c3AmendedScore (("aa").toList) (("xaa aa").toList) :=
  claim3_score_amended.1 (("aa").toList) (("xaa aa").toList)

/-! ## C4: multi-line matching -/

theorem splitNl_length (s : List Char) : (splitNl s).length = countNl s + 1 := by
  induction s with
  | nil => rfl
  | cons c rest ih =>
    by_cases hc : c == '\n'
    · simp [splitNl, hc, countNl, List.countP_cons] at *
      omega
    · cases hs : splitNl rest with
      | nil =>
        exfalso
        rw [hs] at ih
        simp at ih
      | cons g gs =>
        simp [splitNl, hc, hs, countNl, List.countP_cons] at *
        omega

/-- C4 counterexample: for a file whose raw CRLF text is "a\r\nb" the
stored lines are ["a\r", "b"], so the reconstructed full text still
contains the carriage return; the engine normalizes only the query, finds
no occurrence of "a\nb", and reports no match — while the claim's
procedure (normalize the file text too) reports one match.  Hence the
claim's "normalized in both" is false on the code. -/
theorem claim4_counterexample :
    (searchMultiLineInIndex true c4CrlfFi (("a\nb").toList)
        (caseFold true (("a\nb").toList))).map posOf = []
    ∧ c4ClaimPositions true c4CrlfFi.lines (("a\nb").toList) = [(0, 0, 1, 1)] := by
  constructor
  · decide
  · decide

/-- C4 (amended): line-break variants are normalized to LF in the *query
only*; the file text scanned is the stored lines rejoined with a single
LF, as is (carriage returns inside lines are preserved, so CRLF content
does not match an LF query).  The scan reports every occurrence of the
normalized query, resuming one past each match start; the 0-based start
and end lines equal the number of newline characters before the match
start and end, columns are offsets from the last newline, and each
match's score is the context line's single-line score plus 10.  On the
all-LF example file "x\nline1\nline2\ny", searching "line1\nline2"
yields exactly one match from line 2 column 0 to line 3 column 5
(0-based range (1,0)-(2,5)) with score 75 + 10. -/
theorem claim4_multiline_amended :
    (∀ (cs : Bool) (fi : FileIndexM) (q : List Char),
      (searchMultiLineInIndex cs fi q (caseFold cs q)).map posScoreOf =
        multiLinePositionsSpec cs fi.lines q)
    ∧ (searchMultiLineInIndex true c4ExampleFi (("line1\nline2").toList)
        (caseFold true (("line1\nline2").toList))).map posScoreOf =
      [(1, 0, 2, 5, some 85)] := by
  constructor
  · intro cs fi q
    simp only [searchMultiLineInIndex, multiLinePositionsSpec]
    have hft : (if cs then joinNl fi.lines else lowerStr (joinNl fi.lines)) =
        caseFold cs (joinNl fi.lines) := by
      rw [caseFold]
    rw [hft, scanOffsets_eq_occOffsets, List.map_map]
    apply List.map_congr_left
    intro j hj
    simp only [Function.comp, posScoreOf]
    rw [splitNl_length, splitNl_length, Nat.add_sub_cancel, Nat.add_sub_cancel]
  · decide

end TextSearcher

namespace TextSearcher

/-! ## C2: ranking — generic facts about the stable sort -/

theorem insertCmp_perm {α : Type} (cmp : α → α → Int) (x : α) (l : List α) :
    List.Perm (insertCmp cmp x l) (x :: l) := by
  induction l with
  | nil => exact List.Perm.refl _
  | cons y ys ih =>
    rw [insertCmp]
    by_cases h : 0 < cmp x y
    · rw [if_pos h]
      exact (List.Perm.cons y ih).trans (List.Perm.swap x y ys)
    · rw [if_neg h]

theorem sortCmp_perm {α : Type} (cmp : α → α → Int) (l : List α) :
    List.Perm (sortCmp cmp l) l := by
  induction l with
  | nil => exact List.Perm.refl _
  | cons x xs ih =>
    rw [sortCmp]
    exact (insertCmp_perm cmp x (sortCmp cmp xs)).trans (List.Perm.cons x ih)

theorem insertCmp_congr {α : Type} (cmp1 cmp2 : α → α → Int) (x : α) :
    ∀ l : List α, (∀ y ∈ l, cmp1 x y = cmp2 x y) →
      insertCmp cmp1 x l = insertCmp cmp2 x l := by
  intro l
  induction l with
  | nil => intro h; rfl
  | cons y ys ih =>
    intro h
    rw [insertCmp, insertCmp, h y (List.mem_cons_self y ys),
      ih (fun z hz => h z (List.mem_cons_of_mem y hz))]

theorem sortCmp_congr {α : Type} (cmp1 cmp2 : α → α → Int) :
    ∀ l : List α, (∀ x ∈ l, ∀ y ∈ l, cmp1 x y = cmp2 x y) →
      sortCmp cmp1 l = sortCmp cmp2 l := by
  intro l
  induction l with
  | nil => intro h; rfl
  | cons x xs ih =>
    intro h
    rw [sortCmp, sortCmp,
      ih (fun a ha b hb => h a (List.mem_cons_of_mem x ha) b (List.mem_cons_of_mem x hb))]
    apply insertCmp_congr
    intro y hy
    have hy2 : y ∈ xs := (sortCmp_perm cmp2 xs).mem_iff.mp hy
    exact h x (List.mem_cons_self x xs) y (List.mem_cons_of_mem x hy2)

theorem insertCmp_pairwise {α : Type} (cmp : α → α → Int)
    (hflip : ∀ a b : α, 0 < cmp a b → cmp b a ≤ 0)
    (htrans : ∀ a b c : α, cmp a b ≤ 0 → cmp b c ≤ 0 → cmp a c ≤ 0) (x : α) :
    ∀ l : List α, List.Pairwise (fun a b => cmp a b ≤ 0) l →
      List.Pairwise (fun a b => cmp a b ≤ 0) (insertCmp cmp x l) := by
  intro l
  induction l with
  | nil =>
    intro hl
    simp [insertCmp]
  | cons y ys ih =>
    intro hl
    rw [List.pairwise_cons] at hl
    obtain ⟨hy, hys⟩ := hl
    rw [insertCmp]
    by_cases h : 0 < cmp x y
    · rw [if_pos h, List.pairwise_cons]
      constructor
      · intro b hb
        rcases List.mem_cons.mp ((insertCmp_perm cmp x ys).mem_iff.mp hb) with rfl | hb2
        · exact hflip b y h
        · exact hy b hb2
      · exact ih hys
    · rw [if_neg h, List.pairwise_cons]
      have hxy : cmp x y ≤ 0 := by omega
      constructor
      · intro b hb
        rcases List.mem_cons.mp hb with rfl | hb2
        · exact hxy
        · exact htrans x y b hxy (hy b hb2)
      · rw [List.pairwise_cons]
        exact ⟨hy, hys⟩

theorem sortCmp_pairwise {α : Type} (cmp : α → α → Int)
    (hflip : ∀ a b : α, 0 < cmp a b → cmp b a ≤ 0)
    (htrans : ∀ a b c : α, cmp a b ≤ 0 → cmp b c ≤ 0 → cmp a c ≤ 0) :
    ∀ l : List α, List.Pairwise (fun a b => cmp a b ≤ 0) (sortCmp cmp l) := by
  intro l
  induction l with
  | nil => exact List.Pairwise.nil
  | cons x xs ih =>
    rw [sortCmp]
    exact insertCmp_pairwise cmp hflip htrans x (sortCmp cmp xs) ih

theorem filter_insertCmp_keep {α : Type} (cmp : α → α → Int) (p : α → Bool) (x : α)
    (hx : p x = true) (hskip : ∀ y, 0 < cmp x y → p y = false) :
    ∀ l : List α, (insertCmp cmp x l).filter p = x :: l.filter p := by
  intro l
  induction l with
  | nil => simp [insertCmp, hx]
  | cons y ys ih =>
    rw [insertCmp]
    by_cases h : 0 < cmp x y
    · rw [if_pos h]
      rw [List.filter_cons, List.filter_cons, hskip y h]
      simp [ih]
    · rw [if_neg h]
      rw [List.filter_cons, hx]
      rfl

theorem filter_insertCmp_drop {α : Type} (cmp : α → α → Int) (p : α → Bool) (x : α)
    (hx : p x = false) :
    ∀ l : List α, (insertCmp cmp x l).filter p = l.filter p := by
  intro l
  induction l with
  | nil => simp [insertCmp, hx]
  | cons y ys ih =>
    rw [insertCmp]
    by_cases h : 0 < cmp x y
    · rw [if_pos h]
      rw [List.filter_cons, List.filter_cons, ih]
    · rw [if_neg h]
      rw [List.filter_cons, hx]
      simp

/-- Stability of the engine's sort at every defined score value: the
results carrying score `v` appear in the sorted list exactly in their
original relative order. -/
theorem sortCmp_filter_score (v : Int) :
    ∀ rs : List SearchResult,
      (sortCmp resultCmp rs).filter (fun r => r.score == some v) =
        rs.filter (fun r => r.score == some v) := by
  intro rs
  induction rs with
  | nil => rfl
  | cons r rest ih =>
    rw [sortCmp]
    by_cases hx : (r.score == some v) = true
    · have hr : r.score = some v := by simpa using hx
      have hskip : ∀ y, 0 < resultCmp r y → (y.score == some v) = false := by
        intro y hy
        cases hys : y.score with
        | none => simp [hys]
        | some sy =>
          simp only [resultCmp, hr, hys] at hy
          rw [beq_eq_false_iff_ne]
          intro hc
          injection hc with hc2
          omega
      rw [filter_insertCmp_keep resultCmp _ r hx hskip (sortCmp resultCmp rest), ih,
        List.filter_cons, hx]
      simp
    · have hx2 : (r.score == some v) = false := by
        simpa using hx
      rw [filter_insertCmp_drop resultCmp _ r hx2 (sortCmp resultCmp rest), ih,
        List.filter_cons, hx2]
      simp

/-! ## C2: ranking — facts about the grouping pass -/

theorem firstKeysFuel_eq_of_le :
    ∀ (fuel1 fuel2 : Nat) (s : List SearchResult), s.length ≤ fuel1 → s.length ≤ fuel2 →
      firstKeysFuel fuel1 s = firstKeysFuel fuel2 s := by
  intro fuel1
  induction fuel1 with
  | zero =>
    intro fuel2 s h1 h2
    cases s with
    | nil =>
      cases fuel2 with
      | zero => rfl
      | succ f2 => rfl
    | cons r rs => simp at h1
  | succ f1 ih =>
    intro fuel2 s h1 h2
    cases s with
    | nil =>
      cases fuel2 with
      | zero => rfl
      | succ f2 => rfl
    | cons r rs =>
      cases fuel2 with
      | zero => simp at h2
      | succ f2 =>
        rw [firstKeysFuel, firstKeysFuel]
        have hlen : (rs.filter (fun x => !(x.uriPath == r.uriPath))).length ≤ rs.length :=
          List.length_filter_le _ _
        have hr1 : rs.length ≤ f1 := by
          simp at h1
          omega
        have hr2 : rs.length ≤ f2 := by
          simp at h2
          omega
        rw [ih f2 _ (le_trans hlen hr1) (le_trans hlen hr2)]

/-- The one-step unfolding of `firstKeys`. -/
theorem firstKeys_cons (r : SearchResult) (rs : List SearchResult) :
    firstKeys (r :: rs) =
      r.uriPath :: firstKeys (rs.filter (fun x => !(x.uriPath == r.uriPath))) := by
  rw [firstKeys, firstKeys]
  rw [show (r :: rs).length = rs.length + 1 from rfl]
  rw [firstKeysFuel]
  rw [firstKeysFuel_eq_of_le rs.length _ _ (List.length_filter_le _ _) (Nat.le_refl _)]

theorem mem_firstKeys :
    ∀ (n : Nat) (s : List SearchResult), s.length ≤ n →
      ∀ k, k ∈ firstKeys s ↔ ∃ r ∈ s, r.uriPath = k := by
  intro n
  induction n with
  | zero =>
    intro s hs k
    cases s with
    | nil => simp [firstKeys, firstKeysFuel]
    | cons r rs => simp at hs
  | succ m ih =>
    intro s hs k
    cases s with
    | nil => simp [firstKeys, firstKeysFuel]
    | cons r rs =>
      have hlen : (rs.filter (fun x => !(x.uriPath == r.uriPath))).length ≤ m := by
        have := List.length_filter_le (fun x => !(x.uriPath == r.uriPath)) rs
        simp at hs
        omega
      rw [firstKeys_cons]
      constructor
      · intro hk
        rcases List.mem_cons.mp hk with rfl | hk2
        · exact ⟨r, List.mem_cons_self r rs, rfl⟩
        · obtain ⟨x, hx, rfl⟩ := (ih _ hlen k).mp hk2
          exact ⟨x, List.mem_cons_of_mem r (List.mem_filter.mp hx).1, rfl⟩
      · rintro ⟨x, hx, rfl⟩
        rcases List.mem_cons.mp hx with rfl | hx2
        · exact List.mem_cons_self _ _
        · by_cases hxr : (x.uriPath == r.uriPath) = true
          · have hxeq : x.uriPath = r.uriPath := by simpa using hxr
            rw [hxeq]
            exact List.mem_cons_self _ _
          · apply List.mem_cons_of_mem
            apply (ih _ hlen _).mpr
            refine ⟨x, List.mem_filter.mpr ⟨hx2, ?_⟩, rfl⟩
            simp at hxr
            simp [hxr]

theorem firstKeys_nodup :
    ∀ (n : Nat) (s : List SearchResult), s.length ≤ n → (firstKeys s).Nodup := by
  intro n
  induction n with
  | zero =>
    intro s hs
    cases s with
    | nil => simp [firstKeys, firstKeysFuel]
    | cons r rs => simp at hs
  | succ m ih =>
    intro s hs
    cases s with
    | nil => simp [firstKeys, firstKeysFuel]
    | cons r rs =>
      have hlen : (rs.filter (fun x => !(x.uriPath == r.uriPath))).length ≤ m := by
        have := List.length_filter_le (fun x => !(x.uriPath == r.uriPath)) rs
        simp at hs
        omega
      rw [firstKeys_cons, List.nodup_cons]
      constructor
      · intro hmem
        obtain ⟨x, hx, hxeq⟩ := (mem_firstKeys m _ hlen _).mp hmem
        have hf := List.mem_filter.mp hx
        rw [hxeq] at hf
        simp at hf
      · exact ih _ hlen

theorem flatMapCongrMem {α β : Type} {f g : α → List β} :
    ∀ ks : List α, (∀ k ∈ ks, f k = g k) → ks.flatMap f = ks.flatMap g := by
  intro ks
  induction ks with
  | nil => intro h; rfl
  | cons k ks ih =>
    intro h
    rw [List.flatMap_cons, List.flatMap_cons, h k (List.mem_cons_self k ks),
      ih (fun j hj => h j (List.mem_cons_of_mem k hj))]

theorem filterFlatMap {α β : Type} (f : α → List β) (p : β → Bool) :
    ∀ ks : List α, (ks.flatMap f).filter p = ks.flatMap (fun k => (f k).filter p) := by
  intro ks
  induction ks with
  | nil => rfl
  | cons k ks ih =>
    rw [List.flatMap_cons, List.flatMap_cons, List.filter_append, ih]

theorem flatMapIteSingle {β : Type} (k : List Char) (xs : List β) :
    ∀ ks : List (List Char), ks.Nodup →
      ks.flatMap (fun j => if j = k then xs else []) = if k ∈ ks then xs else [] := by
  intro ks
  induction ks with
  | nil =>
    intro hnd
    simp
  | cons j js ih =>
    intro hnd
    rw [List.nodup_cons] at hnd
    rw [List.flatMap_cons]
    by_cases hjk : j = k
    · subst hjk
      rw [if_pos rfl, ih hnd.2, if_neg (fun hc => hnd.1 hc), if_pos (List.mem_cons_self j js)]
      simp
    · rw [if_neg hjk, ih hnd.2]
      have hkj : (k ∈ j :: js) ↔ k ∈ js := by
        rw [List.mem_cons]
        constructor
        · rintro (rfl | hk2)
          · exact absurd rfl hjk
          · exact hk2
        · exact fun hk2 => Or.inr hk2
      by_cases hk : k ∈ js
      · rw [if_pos hk, if_pos (hkj.mpr hk)]
        simp
      · rw [if_neg hk, if_neg (fun hc => hk (hkj.mp hc))]
        simp

/-- Grouping drops and adds nothing: the grouped list is a permutation of
its input. -/
theorem groupByFile_perm :
    ∀ (n : Nat) (s : List SearchResult), s.length ≤ n →
      List.Perm (groupByFile s) s := by
  intro n
  induction n with
  | zero =>
    intro s hs
    cases s with
    | nil => exact List.Perm.refl _
    | cons r rs => simp at hs
  | succ m ih =>
    intro s hs
    cases s with
    | nil => exact List.Perm.refl _
    | cons r rs =>
      have hlen : (rs.filter (fun x => !(x.uriPath == r.uriPath))).length ≤ m := by
        have := List.length_filter_le (fun x => !(x.uriPath == r.uriPath)) rs
        simp at hs
        omega
      rw [groupByFile, firstKeys_cons, List.flatMap_cons]
      have hseg : (r :: rs).filter (fun x => x.uriPath == r.uriPath) =
          r :: rs.filter (fun x => x.uriPath == r.uriPath) := by
        rw [List.filter_cons]
        simp
      have htail : (firstKeys (rs.filter (fun x => !(x.uriPath == r.uriPath)))).flatMap
            (fun k => (r :: rs).filter (fun x => x.uriPath == k)) =
          groupByFile (rs.filter (fun x => !(x.uriPath == r.uriPath))) := by
        rw [groupByFile]
        apply flatMapCongrMem
        intro k hk
        obtain ⟨x, hx, rfl⟩ := (mem_firstKeys m _ hlen k).mp hk
        have hxf := List.mem_filter.mp hx
        have hxr : ¬ x.uriPath = r.uriPath := by
          have := hxf.2
          simp at this
          exact this
        rw [List.filter_cons]
        have hrx : (r.uriPath == x.uriPath) = false := by
          simp
          intro hc
          exact hxr hc.symm
        rw [hrx]
        simp only [Bool.false_eq_true, if_false]
        rw [List.filter_filter]
        apply List.filter_congr
        intro a ha
        by_cases hak : (a.uriPath == x.uriPath) = true
        · have : a.uriPath = x.uriPath := by simpa using hak
          rw [hak]
          have har : (a.uriPath == r.uriPath) = false := by
            simp
            rw [this]
            exact hxr
          rw [har]
          rfl
        · have hak2 : (a.uriPath == x.uriPath) = false := by simpa using hak
          rw [hak2]
          simp
      rw [hseg, htail, List.cons_append]
      apply List.Perm.cons
      exact ((List.Perm.append_left _ (ih _ hlen)).trans
        (List.filter_append_perm (fun x => x.uriPath == r.uriPath) rs))

/-- Within every file, grouping preserves the (score-sorted) order of the
file's results. -/
theorem groupByFile_filter_key (s : List SearchResult) (k : List Char) :
    (groupByFile s).filter (fun r => r.uriPath == k) =
      s.filter (fun r => r.uriPath == k) := by
  rw [groupByFile, filterFlatMap]
  have hcong : ∀ j ∈ firstKeys s,
      (fun j => (s.filter (fun r => r.uriPath == j)).filter (fun r => r.uriPath == k)) j =
        (fun j => if j = k then s.filter (fun r => r.uriPath == k) else []) j := by
    intro j hj
    simp only
    by_cases hjk : j = k
    · subst hjk
      rw [if_pos rfl, List.filter_filter]
      apply List.filter_congr
      intro a ha
      by_cases hak : (a.uriPath == j) = true
      · rw [hak]
        rfl
      · have hak2 : (a.uriPath == j) = false := by simpa using hak
        rw [hak2]
        rfl
    · rw [if_neg hjk, List.filter_eq_nil_iff]
      intro a ha hpa
      have h1 : a.uriPath = j := by
        have := (List.mem_filter.mp ha).2
        simpa using this
      have h2 : a.uriPath = k := by simpa using hpa
      exact hjk (h1 ▸ h2)
  rw [flatMapCongrMem (firstKeys s) hcong,
    flatMapIteSingle k _ (firstKeys s) (firstKeys_nodup s.length s (Nat.le_refl _))]
  by_cases hk : k ∈ firstKeys s
  · rw [if_pos hk]
  · rw [if_neg hk]
    symm
    rw [List.filter_eq_nil_iff]
    intro a ha hpa
    apply hk
    apply (mem_firstKeys s.length s (Nat.le_refl _) k).mpr
    exact ⟨a, ha, by simpa using hpa⟩

/-- Grouping keeps the overall first element: the head of the grouped
list is the highest-ranked result of the sorted list. -/
theorem groupByFile_head (s : List SearchResult) :
    (groupByFile s).head? = s.head? := by
  cases s with
  | nil => rfl
  | cons r rs =>
    rw [groupByFile, firstKeys_cons, List.flatMap_cons]
    have hseg : (r :: rs).filter (fun x => x.uriPath == r.uriPath) =
        r :: rs.filter (fun x => x.uriPath == r.uriPath) := by
      rw [List.filter_cons]
      simp
    rw [hseg, List.cons_append]
    rfl

/-- `dedupAdj` of a nonempty constant block followed by a list that does
not start with the block's key: the key, then `dedupAdj` of the rest. -/
theorem dedupAdj_block :
    ∀ (k : List Char) (l : List (List Char)), l ≠ [] → (∀ x ∈ l, x = k) →
      ∀ rest : List (List Char), rest.head? ≠ some k →
      dedupAdj (l ++ rest) = k :: dedupAdj rest := by
  intro k l
  induction l with
  | nil => intro h; exact absurd rfl h
  | cons a l ih =>
    intro _ hall rest hrest
    have ha : a = k := hall a (List.mem_cons_self a l)
    cases l with
    | nil =>
      cases rest with
      | nil =>
        rw [ha]
        rfl
      | cons b r =>
        have hbk : (a == b) = false := by
          rw [beq_eq_false_iff_ne, ha]
          intro hc
          exact hrest (by rw [← hc]; rfl)
        show dedupAdj (a :: b :: r) = k :: dedupAdj (b :: r)
        simp only [dedupAdj]
        rw [hbk, ha]
        simp
    | cons a2 l2 =>
      have ha2 : a2 = k := hall a2 (List.mem_cons_of_mem a (List.mem_cons_self a2 l2))
      show dedupAdj (a :: a2 :: (l2 ++ rest)) = k :: dedupAdj rest
      simp only [dedupAdj]
      have hab : (a == a2) = true := by rw [ha, ha2]; exact beq_self_eq_true k
      rw [hab]
      rw [if_pos rfl]
      show dedupAdj ((a2 :: l2) ++ rest) = k :: dedupAdj rest
      exact ih (List.cons_ne_nil a2 l2)
        (fun x hx => hall x (List.mem_cons_of_mem a hx)) rest hrest

/-- Every key along the grouped concatenation comes from the key list. -/
theorem groupKeys_mem (s : List SearchResult) (L : List (List Char)) :
    ∀ x ∈ (L.flatMap (fun j => s.filter (fun r => r.uriPath == j))).map
      (fun r => r.uriPath), x ∈ L := by
  intro x hx
  rw [List.mem_map] at hx
  obtain ⟨r, hr, rfl⟩ := hx
  rw [List.mem_flatMap] at hr
  obtain ⟨j, hj, hrj⟩ := hr
  rw [List.mem_filter] at hrj
  rw [eq_of_beq hrj.2]
  exact hj

/-- Concatenating per-key blocks over a duplicate-free key list, each key
having at least one result, yields a list whose run-key sequence is
exactly the key list: the blocks are contiguous and appear in key order. -/
theorem dedupAdj_groupBlocks (s : List SearchResult) :
    ∀ L : List (List Char), L.Nodup → (∀ k ∈ L, ∃ r ∈ s, r.uriPath = k) →
      dedupAdj ((L.flatMap (fun j => s.filter (fun r => r.uriPath == j))).map
        (fun r => r.uriPath)) = L := by
  intro L
  induction L with
  | nil => intro _ _; rfl
  | cons k L ih =>
    intro hnd hex
    rw [List.nodup_cons] at hnd
    have hne : ((s.filter (fun r => r.uriPath == k)).map (fun r => r.uriPath)) ≠ [] := by
      obtain ⟨r, hr, hrk⟩ := hex k (List.mem_cons_self k L)
      apply List.ne_nil_of_mem
      rw [List.mem_map]
      refine ⟨r, ?_, rfl⟩
      rw [List.mem_filter]
      refine ⟨hr, ?_⟩
      rw [hrk]
      exact beq_self_eq_true k
    have hallk : ∀ x ∈ (s.filter (fun r => r.uriPath == k)).map (fun r => r.uriPath),
        x = k := by
      intro x hx
      rw [List.mem_map] at hx
      obtain ⟨r, hrf, rfl⟩ := hx
      rw [List.mem_filter] at hrf
      exact eq_of_beq hrf.2
    have hhd : ((L.flatMap (fun j => s.filter (fun r => r.uriPath == j))).map
        (fun r => r.uriPath)).head? ≠ some k := by
      intro hh
      apply hnd.1
      apply groupKeys_mem s L k
      cases hcase : (L.flatMap (fun j => s.filter (fun r => r.uriPath == j))).map
          (fun r => r.uriPath) with
      | nil =>
        rw [hcase] at hh
        exact Option.noConfusion hh
      | cons a t =>
        rw [hcase] at hh
        rw [List.head?_cons] at hh
        injection hh with h1
        rw [← h1]
        exact List.mem_cons_self a t
    rw [List.flatMap_cons, List.map_append,
      dedupAdj_block k _ hne hallk _ hhd,
      ih hnd.2 (fun k2 hk2 => hex k2 (List.mem_cons_of_mem k hk2))]

/-- Filtering a key out of a result list filters that key out of its
first-encounter key sequence. -/
theorem firstKeys_filter_ne :
    ∀ (n : Nat) (s : List SearchResult) (k : List Char), s.length ≤ n →
      firstKeys (s.filter (fun x => !(x.uriPath == k))) =
        (firstKeys s).filter (fun x => !(x == k)) := by
  intro n
  induction n with
  | zero =>
    intro s k hlen
    cases s with
    | nil => rfl
    | cons r rs =>
      rw [List.length_cons] at hlen
      omega
  | succ m ih =>
    intro s k hlen
    cases s with
    | nil => rfl
    | cons r rs =>
      rw [List.length_cons] at hlen
      have hlen2 : rs.length ≤ m := by omega
      by_cases hk : (r.uriPath == k) = true
      · have hrk : r.uriPath = k := eq_of_beq hk
        have hfc : (r :: rs).filter (fun x => !(x.uriPath == k)) =
            rs.filter (fun x => !(x.uriPath == k)) :=
          List.filter_cons_of_neg (by rw [hk]; exact Bool.false_ne_true)
        rw [hfc, firstKeys_cons, hrk]
        have hfc2 : (k :: firstKeys (rs.filter (fun x => !(x.uriPath == k)))).filter
              (fun x => !(x == k)) =
            (firstKeys (rs.filter (fun x => !(x.uriPath == k)))).filter
              (fun x => !(x == k)) :=
          List.filter_cons_of_neg (by rw [beq_self_eq_true]; exact Bool.false_ne_true)
        rw [hfc2]
        symm
        apply List.filter_eq_self.mpr
        intro x hx
        obtain ⟨r2, hr2, hr2x⟩ :=
          (mem_firstKeys (rs.filter (fun x => !(x.uriPath == k))).length _
            (Nat.le_refl _) x).mp hx
        rw [List.mem_filter] at hr2
        rw [← hr2x]
        exact hr2.2
      · rw [Bool.not_eq_true] at hk
        have hfc : (r :: rs).filter (fun x => !(x.uriPath == k)) =
            r :: rs.filter (fun x => !(x.uriPath == k)) :=
          List.filter_cons_of_pos (by rw [hk]; rfl)
        rw [hfc, firstKeys_cons, firstKeys_cons]
        have hfc2 : (r.uriPath :: firstKeys (rs.filter
              (fun x => !(x.uriPath == r.uriPath)))).filter (fun x => !(x == k)) =
            r.uriPath :: (firstKeys (rs.filter
              (fun x => !(x.uriPath == r.uriPath)))).filter (fun x => !(x == k)) :=
          List.filter_cons_of_pos (by rw [hk]; rfl)
        rw [hfc2]
        have hlen3 : (rs.filter (fun x => !(x.uriPath == r.uriPath))).length ≤ m :=
          le_trans (List.length_filter_le _ _) hlen2
        rw [← ih (rs.filter (fun x => !(x.uriPath == r.uriPath))) k hlen3]
        have hswap : (rs.filter (fun x => !(x.uriPath == k))).filter
              (fun x => !(x.uriPath == r.uriPath)) =
            (rs.filter (fun x => !(x.uriPath == r.uriPath))).filter
              (fun x => !(x.uriPath == k)) := by
          rw [List.filter_filter, List.filter_filter]
          apply List.filter_congr
          intro x _
          rw [Bool.and_comm]
        rw [hswap]

/-- `firstKeys` — the model of the grouping Map's key-insertion order —
is the order-of-first-encounter key sequence of the result list. -/
theorem firstKeys_eq_firstEncounters :
    ∀ (n : Nat) (s : List SearchResult), s.length ≤ n →
      firstKeys s = firstEncounters (s.map (fun r => r.uriPath)) := by
  intro n
  induction n with
  | zero =>
    intro s hlen
    cases s with
    | nil => rfl
    | cons r rs =>
      rw [List.length_cons] at hlen
      omega
  | succ m ih =>
    intro s hlen
    cases s with
    | nil => rfl
    | cons r rs =>
      rw [List.length_cons] at hlen
      have hlen2 : rs.length ≤ m := by omega
      rw [List.map_cons, firstKeys_cons]
      show r.uriPath :: firstKeys (rs.filter (fun x => !(x.uriPath == r.uriPath))) =
        r.uriPath :: (firstEncounters (rs.map (fun r2 => r2.uriPath))).filter
          (fun x => !(x == r.uriPath))
      rw [← ih rs hlen2]
      rw [firstKeys_filter_ne rs.length rs r.uriPath (Nat.le_refl _)]

/-- C2 counterexample: two matches in different files with equal scores
and labels in reverse lexicographic order.  The engine's comparator
returns `b.score - a.score = 0` for them (label comparison is reached
only when a score is undefined), and the stable sort keeps their input
order, so ranking emits the larger label first — while the claim's
tie-break by label would emit the smaller label first. -/
theorem claim2_counterexample :
    sortAndLimitResults [c2ResA, c2ResB] ≠ c2ClaimPipeline [c2ResA, c2ResB] := by
  decide

/-- C2 (amended): ranking sorts all matches in descending order of score;
matches with equal (defined) scores keep their original relative order —
the label comparison applies only when a score is missing — and the
grouping pass then groups by owning file path: each file's matches form
one contiguous block preserving the sorted order inside the block (the
run-key sequence of the output is duplicate-free and the per-key contents
equal the sorted sequence's), the blocks appear in the order their file
paths are first encountered in the sorted sequence (so the group of the
overall highest-ranked match comes first), and no match is dropped or
added. -/
theorem claim2_ranking_amended (rs : List SearchResult)
    (hall : ∀ r ∈ rs, r.score.isSome = true) :
    List.Perm (sortAndLimitResults rs) rs
    ∧ List.Pairwise (fun a b => scoreD b ≤ scoreD a) (sortCmp resultCmp rs)
    ∧ (∀ v : Int, (sortCmp resultCmp rs).filter (fun r => r.score == some v) =
        rs.filter (fun r => r.score == some v))
    ∧ (∀ k, (sortAndLimitResults rs).filter (fun r => r.uriPath == k) =
        (sortCmp resultCmp rs).filter (fun r => r.uriPath == k))
    ∧ (sortAndLimitResults rs).head? = (sortCmp resultCmp rs).head?
    ∧ dedupAdj ((sortAndLimitResults rs).map (fun r => r.uriPath)) =
        firstEncounters ((sortCmp resultCmp rs).map (fun r => r.uriPath))
    ∧ (dedupAdj ((sortAndLimitResults rs).map (fun r => r.uriPath))).Nodup := by
  have hgrp : dedupAdj ((sortAndLimitResults rs).map (fun r => r.uriPath)) =
      firstKeys (sortCmp resultCmp rs) := by
    rw [sortAndLimitResults, groupByFile]
    exact dedupAdj_groupBlocks (sortCmp resultCmp rs) (firstKeys (sortCmp resultCmp rs))
      (firstKeys_nodup (sortCmp resultCmp rs).length _ (Nat.le_refl _))
      (fun k hk => (mem_firstKeys (sortCmp resultCmp rs).length _ (Nat.le_refl _) k).mp hk)
  refine ⟨?_, ?_, ?_, ?_, ?_, ?_, ?_⟩
  · rw [sortAndLimitResults]
    exact (groupByFile_perm (sortCmp resultCmp rs).length _ (Nat.le_refl _)).trans
      (sortCmp_perm resultCmp rs)
  · have hcong : sortCmp resultCmp rs = sortCmp scoreCmp rs := by
      apply sortCmp_congr
      intro x hx y hy
      obtain ⟨sx, hsx⟩ := Option.isSome_iff_exists.mp (hall x hx)
      obtain ⟨sy, hsy⟩ := Option.isSome_iff_exists.mp (hall y hy)
      simp [resultCmp, scoreCmp, scoreD, hsx, hsy]
    rw [hcong]
    have hpw := sortCmp_pairwise scoreCmp
      (fun a b h => by simp [scoreCmp] at *; omega)
      (fun a b c h1 h2 => by simp [scoreCmp] at *; omega) rs
    exact hpw.imp (fun h => by simp [scoreCmp] at h; omega)
  · intro v
    exact sortCmp_filter_score v rs
  · intro k
    rw [sortAndLimitResults]
    exact groupByFile_filter_key _ k
  · rw [sortAndLimitResults]
    exact groupByFile_head _
  · rw [hgrp]
    exact firstKeys_eq_firstEncounters (sortCmp resultCmp rs).length _ (Nat.le_refl _)
  · rw [hgrp]
    exact firstKeys_nodup (sortCmp resultCmp rs).length _ (Nat.le_refl _)

/-- Witness for the amended C2 at a concrete two-element result list. -/
theorem claim2_ranking_amended_witness :
    (∀ r ∈ [c2ResA, c2ResB], r.score.isSome = true)
    ∧ List.Perm (sortAndLimitResults [c2ResA, c2ResB]) [c2ResA, c2ResB]
    ∧ dedupAdj ((sortAndLimitResults [c2ResA, c2ResB]).map (fun r => r.uriPath)) =
        firstEncounters ((sortCmp resultCmp [c2ResA, c2ResB]).map (fun r => r.uriPath)) :=
  ⟨by decide, (claim2_ranking_amended [c2ResA, c2ResB] (by decide)).1,
    (claim2_ranking_amended [c2ResA, c2ResB] (by decide)).2.2.2.2.2.1⟩

end TextSearcher

namespace TextSearcher

/-! ## C5: cache snapshot validation -/

/-- C5 counterexample: a snapshot whose age is exactly `MAX_CACHE_AGE`
(with current version, matching fingerprint and all entries still
stat-matching) is accepted by the code — the rejection test is
`age > MAX_CACHE_AGE` — although its age is not *under* the maximum, so
the claim's acceptance condition is false at this input. -/
theorem claim5_counterexample :
    (loadIndexFromCache c5ExampleCache MAX_CACHE_AGE (("w1hash").toList) c5ExampleStat).1 = true
    ∧ ¬ c5ClaimUsable c5ExampleCache MAX_CACHE_AGE (("w1hash").toList) c5ExampleStat := by
  constructor
  · decide
  · unfold c5ClaimUsable
    decide

/-- C5 (amended): a persisted snapshot is accepted if and only if its
format version equals the engine's, its workspace fingerprint matches,
its age does not exceed (`≤`) the maximum cache age, and at least 80% of
its entries still stat-match; and `initialize` performs a full rebuild
exactly when the load is not usable. -/
theorem claim5_cache_validation (cached : CachedIndexM) (now : Int) (hash : List Char)
    (stat : List Char → Option Int) :
    ((loadIndexFromCache cached now hash stat).1 = true ↔
      (cached.version = CACHE_VERSION ∧ cached.workspaceHash = hash ∧
        now - cached.lastIndexTime ≤ MAX_CACHE_AGE ∧
        4 * cached.fileIndex.length ≤ 5 * (validCacheEntries cached stat).length))
    ∧ (initChoice cached now hash stat = InitAction.fullRebuild ↔
        (loadIndexFromCache cached now hash stat).1 = false) := by
  constructor
  · simp only [loadIndexFromCache]
    split_ifs with hb hc
    · simp only [Bool.or_eq_true, Bool.not_eq_true', beq_eq_false_iff_ne, ne_eq,
        decide_eq_true_eq] at hb
      simp only [Bool.false_eq_true, false_iff, not_and]
      intro hv hh
      rcases hb with (hb | hb) | hb
      · exact absurd hv hb
      · exact absurd hh hb
      · intro hage
        omega
    · simp only [Bool.or_eq_true, Bool.not_eq_true', beq_eq_false_iff_ne, ne_eq,
        decide_eq_true_eq, not_or, not_not, not_lt] at hb
      obtain ⟨⟨hv, hh⟩, hage⟩ := hb
      simp only [Bool.false_eq_true, false_iff, not_and]
      intro _ _ _
      rw [validCacheEntries] at hc ⊢
      omega
    · simp only [Bool.or_eq_true, Bool.not_eq_true', beq_eq_false_iff_ne, ne_eq,
        decide_eq_true_eq, not_or, not_not, not_lt] at hb
      obtain ⟨⟨hv, hh⟩, hage⟩ := hb
      simp only [true_iff]
      refine ⟨hv, hh, hage, ?_⟩
      rw [validCacheEntries] at hc ⊢
      omega
  · rw [initChoice]
    by_cases h : (loadIndexFromCache cached now hash stat).1 = true
    · rw [if_pos h]
      constructor
      · intro hc
        cases hc
      · intro hc
        rw [h] at hc
        cases hc
    · rw [if_neg h]
      simp only [Bool.not_eq_true] at h
      constructor
      · intro _
        exact h
      · intro _
        rfl

/-! ## C7: bounded index and eviction -/

/-- Decomposition facts for the eviction step: with `E` a
`lastModified`-sorted permutation of the index and `K` the keys of its
first `n` entries, filtering the index by key membership in `K` splits it
into the `n` oldest entries and the rest. -/
theorem evictFacts (idx E : List (List Char × IndexEntryM)) (n : Nat) (K : List (List Char))
    (hperm : List.Perm E idx)
    (hnodup : (E.map Prod.fst).Nodup)
    (hsorted : List.Pairwise (fun a b => mtimeCmp a b ≤ 0) E)
    (hn : n ≤ E.length)
    (hK : K = (E.take n).map Prod.fst) :
    List.Perm idx
        (idx.filter (fun pe => !(K.contains pe.1)) ++
          idx.filter (fun pe => K.contains pe.1))
    ∧ (idx.filter (fun pe => K.contains pe.1)).length = n
    ∧ (∀ r ∈ idx.filter (fun pe => K.contains pe.1),
        ∀ kp ∈ idx.filter (fun pe => !(K.contains pe.1)),
          r.2.lastModified ≤ kp.2.lastModified) := by
  have hTD : E.take n ++ E.drop n = E := List.take_append_drop n E
  have htakeP : ∀ pe ∈ E.take n, (K.contains pe.1) = true := by
    intro pe hpe
    subst hK
    simp only [List.contains, List.elem_eq_mem, decide_eq_true_eq]
    exact List.mem_map_of_mem Prod.fst hpe
  have hdropP : ∀ pe ∈ E.drop n, (K.contains pe.1) = false := by
    intro pe hpe
    subst hK
    have hnd : ((E.take n).map Prod.fst ++ (E.drop n).map Prod.fst).Nodup := by
      rw [← List.map_append, hTD]
      exact hnodup
    rw [List.nodup_append] at hnd
    simp only [List.contains, List.elem_eq_mem, decide_eq_false_iff_not]
    intro hmem
    exact hnd.2.2 hmem (List.mem_map_of_mem Prod.fst hpe)
  have hfilterE : E.filter (fun pe => K.contains pe.1) = E.take n := by
    conv_lhs => rw [← hTD]
    rw [List.filter_append, List.filter_eq_self.mpr htakeP,
      List.filter_eq_nil_iff.mpr (fun pe hpe => by rw [hdropP pe hpe]; simp),
      List.append_nil]
  have hfilterE2 : E.filter (fun pe => !(K.contains pe.1)) = E.drop n := by
    conv_lhs => rw [← hTD]
    rw [List.filter_append,
      List.filter_eq_nil_iff.mpr (fun pe hpe => by rw [htakeP pe hpe]; simp),
      List.filter_eq_self.mpr (fun pe hpe => by rw [hdropP pe hpe]; simp),
      List.nil_append]
  have hRem : List.Perm (idx.filter (fun pe => K.contains pe.1)) (E.take n) := by
    have h1 := List.Perm.filter (fun pe => K.contains pe.1) hperm
    rw [hfilterE] at h1
    exact h1.symm
  have hKeep : List.Perm (idx.filter (fun pe => !(K.contains pe.1))) (E.drop n) := by
    have h1 := List.Perm.filter (fun pe => !(K.contains pe.1)) hperm
    rw [hfilterE2] at h1
    exact h1.symm
  refine ⟨?_, ?_, ?_⟩
  · exact ((List.filter_append_perm (fun pe => K.contains pe.1) idx).symm).trans
      List.perm_append_comm
  · rw [hRem.length_eq, List.length_take]
    omega
  · intro r hr kp hkp
    have hrT : r ∈ E.take n := hRem.mem_iff.mp hr
    have hkpD : kp ∈ E.drop n := hKeep.mem_iff.mp hkp
    have hs2 : List.Pairwise (fun a b => mtimeCmp a b ≤ 0) (E.take n ++ E.drop n) := by
      rw [hTD]
      exact hsorted
    have hcross := (List.pairwise_append.mp hs2).2.2 r hrT kp hkpD
    simp only [mtimeCmp] at hcross
    omega

/-- C7: whenever the index being built exceeds `MAX_INDEX_SIZE` and the
eviction cooldown has elapsed, exactly `⌊length/5⌋` entries are evicted,
and every evicted entry's `lastModified` is at most that of every kept
entry (the oldest 20% go); an attempt while the index is small enough,
or within the cooldown interval, changes nothing. -/
theorem claim7_eviction (idx : List (List Char × IndexEntryM)) (now lastC : Int)
    (hkeys : (idx.map Prod.fst).Nodup) :
    (idx.length ≤ MAX_INDEX_SIZE → indexBatchCleanupCheck idx now lastC = (idx, lastC))
    ∧ (now - lastC < INDEX_CLEANUP_INTERVAL →
        indexBatchCleanupCheck idx now lastC = (idx, lastC))
    ∧ (MAX_INDEX_SIZE < idx.length → INDEX_CLEANUP_INTERVAL ≤ now - lastC →
        ∃ removed, List.Perm idx ((indexBatchCleanupCheck idx now lastC).1 ++ removed)
          ∧ removed.length = idx.length / 5
          ∧ ∀ r ∈ removed, ∀ kp ∈ (indexBatchCleanupCheck idx now lastC).1,
              r.2.lastModified ≤ kp.2.lastModified) := by
  refine ⟨?_, ?_, ?_⟩
  · intro hle
    rw [indexBatchCleanupCheck, if_neg (by omega)]
  · intro hcool
    rw [indexBatchCleanupCheck]
    by_cases hsz : MAX_INDEX_SIZE < idx.length
    · rw [if_pos hsz, cleanupOldEntries, if_pos hcool]
    · rw [if_neg hsz]
  · intro hsz hcool
    have hres : indexBatchCleanupCheck idx now lastC =
        (idx.filter (fun pe =>
          !((((sortCmp mtimeCmp idx).take (idx.length / 5)).map Prod.fst).contains pe.1)),
          now) := by
      rw [indexBatchCleanupCheck, if_pos hsz, cleanupOldEntries, if_neg (by omega)]
    rw [hres]
    have hperm0 : List.Perm (sortCmp mtimeCmp idx) idx := sortCmp_perm mtimeCmp idx
    have hnodup : ((sortCmp mtimeCmp idx).map Prod.fst).Nodup :=
      (List.Perm.nodup_iff (hperm0.map Prod.fst)).mpr hkeys
    have hsorted := sortCmp_pairwise mtimeCmp
      (fun a b h => by simp only [mtimeCmp] at *; omega)
      (fun a b c h1 h2 => by simp only [mtimeCmp] at *; omega) idx
    have hn : idx.length / 5 ≤ (sortCmp mtimeCmp idx).length := by
      rw [hperm0.length_eq]
      omega
    obtain ⟨hp, hlen, hdom⟩ := evictFacts idx (sortCmp mtimeCmp idx) (idx.length / 5)
      (((sortCmp mtimeCmp idx).take (idx.length / 5)).map Prod.fst)
      hperm0 hnodup hsorted hn rfl
    exact ⟨idx.filter (fun pe =>
        (((sortCmp mtimeCmp idx).take (idx.length / 5)).map Prod.fst).contains pe.1),
      hp, hlen, fun r hr kp hkp => hdom r hr kp hkp⟩

/-- Witness for C7 at a concrete two-entry index (small, so the size
guard leaves it untouched). -/
theorem claim7_eviction_witness :
    (([((("a").toList), { lines := [], lastModified := 1 }),
        ((("b").toList), { lines := [], lastModified := 2 })] :
          List (List Char × IndexEntryM)).map Prod.fst).Nodup
    ∧ indexBatchCleanupCheck
        [((("a").toList), { lines := [], lastModified := 1 }),
          ((("b").toList), { lines := [], lastModified := 2 })] 0 0 =
      ([((("a").toList), { lines := [], lastModified := 1 }),
        ((("b").toList), { lines := [], lastModified := 2 })], 0) :=
  ⟨by decide, (claim7_eviction _ 0 0 (by decide)).1 (by decide)⟩

end TextSearcher

namespace TextSearcher

/-! ## C8: short queries return empty without touching the index -/

/-- C8: a query shorter than 2 characters makes `search` return the empty
result list immediately; neither the freshness gate nor the index scan
runs (the effect trace is empty), whatever the index, case mode or
cancellation state. -/
theorem claim8_short_query (index : List FileIndexM) (q : List Char) (cs : Bool)
    (abortPre abortPost : Bool) (sig : Nat → Bool) (h : q.length < 2) :
    search index q cs abortPre abortPost sig = (Except.ok [], []) := by
  rw [search, if_pos h]

/-- Witness for C8 at the one-character query "a". -/
theorem claim8_short_query_witness :
    (("a").toList).length < 2
    ∧ search [] (("a").toList) true false false (fun _ => false) = (Except.ok [], []) :=
  ⟨by decide,
    claim8_short_query [] (("a").toList) true false false (fun _ => false) (by decide)⟩

/-! ## C9: cancellation at batch boundaries -/

theorem scanBatchesFuel_abort (cs multi : Bool) (index : List FileIndexM)
    (oq sq : List Char) (sig : Nat → Bool) :
    ∀ (fuel i : Nat) (acc : List SearchResult),
      index.length ≤ fuel + i →
      (∃ k, i ≤ k ∧ k < index.length ∧ (k - i) % BATCH_SIZE = 0 ∧ sig k = true) →
      scanBatchesFuel cs multi index oq sq sig fuel i acc = Except.error () := by
  have hB : BATCH_SIZE = 50 := rfl
  intro fuel
  induction fuel with
  | zero =>
    intro i acc hfi hex
    obtain ⟨k, hk1, hk2, _, _⟩ := hex
    omega
  | succ fuel ih =>
    intro i acc hfi hex
    obtain ⟨k, hk1, hk2, hk3, hk4⟩ := hex
    rw [scanBatchesFuel]
    rw [if_pos (by omega : i < index.length)]
    by_cases hsig : sig i = true
    · rw [if_pos hsig]
    · rw [if_neg hsig]
      apply ih
      · rw [hB]
        omega
      · have hki : k ≠ i := by
          intro hc
          rw [hc] at hk4
          exact hsig hk4
        rw [hB] at hk3 ⊢
        refine ⟨k, by omega, hk2, by omega, hk4⟩

/-- C9: if the cancellation signal is set at any batch boundary of the
scan, `search` aborts with the cancellation outcome and returns no
result list — the results of already-scanned batches are discarded, not
returned. -/
theorem claim9_cancellation (index : List FileIndexM) (q : List Char) (cs : Bool)
    (abortPre abortPost : Bool) (sig : Nat → Bool)
    (hq : 2 ≤ q.length)
    (hsig : ∃ k, k < index.length ∧ k % BATCH_SIZE = 0 ∧ sig k = true) :
    (search index q cs abortPre abortPost sig).1 = Except.error () := by
  obtain ⟨k, hk1, hk2, hk3⟩ := hsig
  simp only [search]
  rw [if_neg (by omega : ¬ q.length < 2)]
  by_cases hpre : abortPre = true
  · rw [if_pos hpre]
  · rw [if_neg hpre]
    by_cases hpost : abortPost = true
    · rw [if_pos hpost]
    · rw [if_neg hpost]
      rw [scanBatches, scanBatchesFuel_abort cs (isMultiLineQuery q) index q
        (caseFold cs q) sig (index.length + 1) 0 [] (by omega)
        ⟨k, Nat.zero_le k, hk1, by simpa using hk2, hk3⟩]

/-- Witness for C9: one indexed file and a signal set at the first batch
boundary; the search errors out with no results. -/
theorem claim9_cancellation_witness :
    (2 ≤ (("ab").toList).length
      ∧ ∃ k, k < ([c1ExampleFi] : List FileIndexM).length ∧ k % BATCH_SIZE = 0
          ∧ (fun i => i == 0) k = true)
    ∧ (search [c1ExampleFi] (("ab").toList) true false false (fun i => i == 0)).1 =
        Except.error () :=
  ⟨⟨by decide, ⟨0, by decide, by decide, by decide⟩⟩,
    claim9_cancellation [c1ExampleFi] (("ab").toList) true false false (fun i => i == 0)
      (by decide) ⟨0, by decide, by decide, by decide⟩⟩

/-! ## C10: pendingSearches is never negative -/

/-- C10: the engine state starts with `pendingSearches = 0`, and after any
sequence of the state mutations the source performs (readiness, the
increment at the top of `search`, and the `finally` decrement with its
floor at 0), the state returned by `getSearchState` has a non-negative
`pendingSearches`. -/
theorem claim10_pending_nonneg :
    (runEngineOps []).pendingSearches = 0
    ∧ ∀ ops : List EngineOp, 0 ≤ (getSearchState (runEngineOps ops)).pendingSearches := by
  constructor
  · rfl
  · have hgen : ∀ (ops : List EngineOp) (s : SearchStateM), 0 ≤ s.pendingSearches →
        0 ≤ (ops.foldl applyEngineOp s).pendingSearches := by
      intro ops
      induction ops with
      | nil =>
        intro s hs
        exact hs
      | cons op rest ih =>
        intro s hs
        rw [List.foldl_cons]
        apply ih
        cases op with
        | markReady => simpa [applyEngineOp] using hs
        | searchBegin t =>
          simp only [applyEngineOp]
          omega
        | searchFinally =>
          simp only [applyEngineOp]
          exact le_max_left 0 _
    intro ops
    exact hgen ops initialSearchState (by rw [initialSearchState])

end TextSearcher

namespace TextSearcher

/-! ## C6: incremental update — association-list (Map) facts -/

theorem lookupA_setA {β : Type} (k : List Char) (v : β) (p : List Char) :
    ∀ idx : List (List Char × β),
      lookupA (setA idx k v) p = if k = p then some v else lookupA idx p := by
  intro idx
  induction idx with
  | nil =>
    by_cases h : k = p
    · rw [if_pos h]
      show (if (k == p) = true then some v else none) = some v
      rw [if_pos (by simp [h])]
    · rw [if_neg h]
      show (if (k == p) = true then some v else none) = none
      rw [if_neg (by simp [h])]
  | cons pe rest ih =>
    by_cases h1 : pe.1 = k
    · have hset : setA (pe :: rest) k v = (k, v) :: rest := by
        rw [setA, if_pos (by simp [h1])]
      rw [hset]
      by_cases h2 : k = p
      · rw [if_pos h2]
        show (if (k == p) = true then some v else lookupA rest p) = some v
        rw [if_pos (by simp [h2])]
      · rw [if_neg h2]
        show (if (k == p) = true then some v else lookupA rest p) =
          if (pe.1 == p) = true then some pe.2 else lookupA rest p
        rw [if_neg (by simp [h2]),
          if_neg (by simp only [beq_iff_eq]; rw [h1]; exact h2)]
    · have hset : setA (pe :: rest) k v = pe :: setA rest k v := by
        rw [setA, if_neg (by simp [h1])]
      rw [hset]
      show (if (pe.1 == p) = true then some pe.2 else lookupA (setA rest k v) p) = _
      by_cases h3 : pe.1 = p
      · have hkp : ¬ k = p := by
          intro hc
          exact h1 (by rw [h3, hc])
        rw [if_pos (by simp [h3]), if_neg hkp]
        show _ = if (pe.1 == p) = true then some pe.2 else lookupA rest p
        rw [if_pos (by simp [h3])]
      · rw [if_neg (by simp [h3]), ih]
        by_cases h2 : k = p
        · rw [if_pos h2, if_pos h2]
        · rw [if_neg h2, if_neg h2]
          show _ = if (pe.1 == p) = true then some pe.2 else lookupA rest p
          rw [if_neg (by simp [h3])]

theorem setA_map_fst {β : Type} (k : List Char) (v : β) :
    ∀ idx : List (List Char × β),
      (setA idx k v).map Prod.fst =
        if (idx.map Prod.fst).contains k then idx.map Prod.fst
        else idx.map Prod.fst ++ [k] := by
  intro idx
  induction idx with
  | nil => simp [setA]
  | cons pe rest ih =>
    by_cases h1 : pe.1 = k
    · have hset : setA (pe :: rest) k v = (k, v) :: rest := by
        rw [setA, if_pos (by simp [h1])]
      have hcont : ((pe :: rest).map Prod.fst).contains k = true := by
        rw [List.map_cons, List.contains_cons]
        have hkk : (k == pe.1) = true := by simp [h1]
        rw [hkk, Bool.true_or]
      rw [hset, if_pos hcont]
      simp [h1]
    · have hset : setA (pe :: rest) k v = pe :: setA rest k v := by
        rw [setA, if_neg (by simp [h1])]
      have hne : (k == pe.1) = false := by
        simp only [beq_eq_false_iff_ne, ne_eq]
        intro hc
        exact h1 hc.symm
      rw [hset]
      simp only [List.map_cons, List.contains_cons, hne, Bool.false_or, ih]
      by_cases hc : (rest.map Prod.fst).contains k = true
      · rw [if_pos hc, if_pos hc]
      · rw [if_neg hc, if_neg hc, List.cons_append]

theorem setA_nodup {β : Type} (k : List Char) (v : β) (idx : List (List Char × β))
    (h : (idx.map Prod.fst).Nodup) : ((setA idx k v).map Prod.fst).Nodup := by
  rw [setA_map_fst]
  by_cases hc : (idx.map Prod.fst).contains k = true
  · rw [if_pos hc]
    exact h
  · rw [if_neg hc]
    rw [List.nodup_append]
    refine ⟨h, List.nodup_singleton k, ?_⟩
    intro a ha
    simp only [List.mem_singleton]
    intro hak
    subst hak
    rw [List.contains_iff_exists_mem_beq] at hc
    exact hc ⟨a, ha, by simp⟩

theorem lookupA_filter_key {β : Type} (f : List Char → Bool) (p : List Char) :
    ∀ idx : List (List Char × β),
      lookupA (idx.filter (fun pe => f pe.1)) p =
        if f p = true then lookupA idx p else none := by
  intro idx
  induction idx with
  | nil =>
    rw [List.filter_nil]
    by_cases h : f p = true
    · rw [if_pos h]
    · rw [if_neg h]
      rfl
  | cons pe rest ih =>
    rw [List.filter_cons]
    by_cases h2 : f pe.1 = true
    · rw [if_pos (by simpa using h2)]
      show (if (pe.1 == p) = true then some pe.2
        else lookupA (rest.filter (fun pe => f pe.1)) p) = _
      by_cases h1 : pe.1 = p
      · rw [if_pos (by simp [h1]), if_pos (h1 ▸ h2)]
        show _ = if (pe.1 == p) = true then some pe.2 else lookupA rest p
        rw [if_pos (by simp [h1])]
      · rw [if_neg (by simp [h1]), ih]
        by_cases h3 : f p = true
        · rw [if_pos h3, if_pos h3]
          show _ = if (pe.1 == p) = true then some pe.2 else lookupA rest p
          rw [if_neg (by simp [h1])]
        · rw [if_neg h3, if_neg h3]
    · rw [if_neg (by simpa using h2), ih]
      by_cases h3 : f p = true
      · rw [if_pos h3, if_pos h3]
        show _ = if (pe.1 == p) = true then some pe.2 else lookupA rest p
        have h1 : ¬ pe.1 = p := by
          intro hc
          rw [hc] at h2
          exact h2 h3
        rw [if_neg (by simp [h1])]
      · rw [if_neg h3, if_neg h3]

theorem lookupA_some_mem {β : Type} (p : List Char) (v : β) :
    ∀ idx : List (List Char × β), lookupA idx p = some v → (p, v) ∈ idx := by
  intro idx
  induction idx with
  | nil =>
    intro h
    cases h
  | cons pe rest ih =>
    intro h
    rw [lookupA] at h
    by_cases h1 : (pe.1 == p) = true
    · rw [if_pos h1] at h
      have hp : pe.1 = p := by simpa using h1
      have hv : pe.2 = v := by
        injection h
      have hpe : (p, v) = pe := by
        rw [← hp, ← hv]
      rw [hpe]
      exact List.mem_cons_self pe rest
    · rw [if_neg h1] at h
      exact List.mem_cons_of_mem pe (ih h)

theorem mem_lookupA {β : Type} (p : List Char) (v : β) :
    ∀ idx : List (List Char × β), (idx.map Prod.fst).Nodup → (p, v) ∈ idx →
      lookupA idx p = some v := by
  intro idx
  induction idx with
  | nil =>
    intro _ hm
    cases hm
  | cons pe rest ih =>
    intro hnd hm
    rw [List.map_cons, List.nodup_cons] at hnd
    rcases List.mem_cons.mp hm with heq | hm2
    · rw [← heq, lookupA, if_pos (by simp)]
    · by_cases h1 : pe.1 = p
      · exfalso
        apply hnd.1
        rw [h1]
        exact List.mem_map_of_mem Prod.fst hm2
      · rw [lookupA, if_neg (by simp [h1])]
        exact ih hnd.2 hm2

end TextSearcher

namespace TextSearcher

/-! ## C6: incremental update — per-candidate and fold lemmas -/

theorem lookupA_indexSingleFile_other (idx : List (List Char × IndexEntryM))
    (w : WorkspaceFileM) (st : FileStatM) (p : List Char) (hne : w.path ≠ p) :
    lookupA (indexSingleFile idx w st) p = lookupA idx p := by
  rw [indexSingleFile]
  by_cases hs : MAX_FILE_SIZE < st.size
  · rw [if_pos hs]
  · rw [if_neg hs]
    cases hc : w.content with
    | none => rfl
    | some content =>
      show lookupA (setA idx w.path
        { lines := splitNl content, lastModified := st.mtime }) p = lookupA idx p
      rw [lookupA_setA, if_neg hne]

theorem lookupA_indexSingleFile_self (idx : List (List Char × IndexEntryM))
    (w : WorkspaceFileM) (st : FileStatM) :
    lookupA (indexSingleFile idx w st) w.path =
      if MAX_FILE_SIZE < st.size then lookupA idx w.path
      else
        match w.content with
        | none => lookupA idx w.path
        | some content => some { lines := splitNl content, lastModified := st.mtime } := by
  rw [indexSingleFile]
  by_cases hs : MAX_FILE_SIZE < st.size
  · rw [if_pos hs, if_pos hs]
  · rw [if_neg hs, if_neg hs]
    cases hc : w.content with
    | none => rfl
    | some content =>
      show lookupA (setA idx w.path
        { lines := splitNl content, lastModified := st.mtime }) w.path = _
      rw [lookupA_setA, if_pos rfl]

theorem indexSingleFile_nodup (idx : List (List Char × IndexEntryM))
    (w : WorkspaceFileM) (st : FileStatM) (h : (idx.map Prod.fst).Nodup) :
    ((indexSingleFile idx w st).map Prod.fst).Nodup := by
  rw [indexSingleFile]
  by_cases hs : MAX_FILE_SIZE < st.size
  · rw [if_pos hs]
    exact h
  · rw [if_neg hs]
    cases hc : w.content with
    | none => exact h
    | some content =>
      show ((setA idx w.path
        { lines := splitNl content, lastModified := st.mtime }).map Prod.fst).Nodup
      exact setA_nodup _ _ _ h

theorem incrementalStep_other (acc : List (List Char × IndexEntryM) × Nat × Nat)
    (w : WorkspaceFileM) (p : List Char) (hne : w.path ≠ p) :
    lookupA (incrementalStep acc w).1 p = lookupA acc.1 p := by
  rw [incrementalStep]
  cases hst : w.stat with
  | none => rfl
  | some st =>
    cases hl : lookupA acc.1 w.path with
    | none =>
      show lookupA (indexSingleFile acc.1 w st) p = _
      exact lookupA_indexSingleFile_other _ _ _ _ hne
    | some e =>
      show lookupA (if e.lastModified < st.mtime
        then (indexSingleFile acc.1 w st, acc.2.1, acc.2.2 + 1) else acc).1 p = _
      by_cases hm : e.lastModified < st.mtime
      · rw [if_pos hm]
        exact lookupA_indexSingleFile_other _ _ _ _ hne
      · rw [if_neg hm]

theorem incrementalStep_self (acc : List (List Char × IndexEntryM) × Nat × Nat)
    (w : WorkspaceFileM) :
    lookupA (incrementalStep acc w).1 w.path =
      candidateLookupSpec (lookupA acc.1 w.path) w := by
  rw [incrementalStep, candidateLookupSpec]
  cases hst : w.stat with
  | none => rfl
  | some st =>
    cases hl : lookupA acc.1 w.path with
    | none =>
      show lookupA (indexSingleFile acc.1 w st) w.path = _
      rw [lookupA_indexSingleFile_self, hl]
    | some e =>
      show lookupA (if e.lastModified < st.mtime
          then (indexSingleFile acc.1 w st, acc.2.1, acc.2.2 + 1) else acc).1 w.path =
        if e.lastModified < st.mtime then
          (if MAX_FILE_SIZE < st.size then some e
            else
              match w.content with
              | none => some e
              | some content => some { lines := splitNl content, lastModified := st.mtime })
        else some e
      by_cases hm : e.lastModified < st.mtime
      · rw [if_pos hm, if_pos hm, lookupA_indexSingleFile_self, hl]
      · rw [if_neg hm, if_neg hm]
        exact hl

theorem incrementalStep_nodup (acc : List (List Char × IndexEntryM) × Nat × Nat)
    (w : WorkspaceFileM) (h : (acc.1.map Prod.fst).Nodup) :
    (((incrementalStep acc w).1).map Prod.fst).Nodup := by
  rw [incrementalStep]
  cases hst : w.stat with
  | none => exact h
  | some st =>
    cases hl : lookupA acc.1 w.path with
    | none =>
      show (((indexSingleFile acc.1 w st)).map Prod.fst).Nodup
      exact indexSingleFile_nodup _ _ _ h
    | some e =>
      show (((if e.lastModified < st.mtime
        then (indexSingleFile acc.1 w st, acc.2.1, acc.2.2 + 1) else acc).1).map Prod.fst).Nodup
      by_cases hm : e.lastModified < st.mtime
      · rw [if_pos hm]
        exact indexSingleFile_nodup _ _ _ h
      · rw [if_neg hm]
        exact h

theorem incrementalStep_counters (acc : List (List Char × IndexEntryM) × Nat × Nat)
    (w : WorkspaceFileM) :
    (incrementalStep acc w).2.1 + (incrementalStep acc w).2.2 =
      acc.2.1 + acc.2.2 + (if wantsReindex acc.1 w = true then 1 else 0) := by
  rw [incrementalStep, wantsReindex]
  cases hst : w.stat with
  | none => simp
  | some st =>
    cases hl : lookupA acc.1 w.path with
    | none =>
      show acc.2.1 + 1 + acc.2.2 = acc.2.1 + acc.2.2 + (if true = true then 1 else 0)
      rw [if_pos rfl]
      omega
    | some e =>
      show ((if e.lastModified < st.mtime
          then (indexSingleFile acc.1 w st, acc.2.1, acc.2.2 + 1) else acc)).2.1 +
          ((if e.lastModified < st.mtime
          then (indexSingleFile acc.1 w st, acc.2.1, acc.2.2 + 1) else acc)).2.2 =
        acc.2.1 + acc.2.2 + (if decide (e.lastModified < st.mtime) = true then 1 else 0)
      by_cases hm : e.lastModified < st.mtime
      · rw [if_pos hm, if_pos (by simp [hm])]
        show acc.2.1 + (acc.2.2 + 1) = acc.2.1 + acc.2.2 + 1
        omega
      · rw [if_neg hm, if_neg (by simp [hm])]
        show acc.2.1 + acc.2.2 = acc.2.1 + acc.2.2 + 0
        omega

theorem fold_preserve (p : List Char) :
    ∀ (files : List WorkspaceFileM) (acc : List (List Char × IndexEntryM) × Nat × Nat),
      (∀ w ∈ files, w.path ≠ p) →
      lookupA (files.foldl incrementalStep acc).1 p = lookupA acc.1 p := by
  intro files
  induction files with
  | nil =>
    intro acc h
    rfl
  | cons w rest ih =>
    intro acc h
    rw [List.foldl_cons, ih _ (fun w2 hw2 => h w2 (List.mem_cons_of_mem w hw2))]
    exact incrementalStep_other acc w p (h w (List.mem_cons_self w rest))

theorem fold_nodup :
    ∀ (files : List WorkspaceFileM) (acc : List (List Char × IndexEntryM) × Nat × Nat),
      (acc.1.map Prod.fst).Nodup →
      (((files.foldl incrementalStep acc).1).map Prod.fst).Nodup := by
  intro files
  induction files with
  | nil =>
    intro acc h
    exact h
  | cons w rest ih =>
    intro acc h
    rw [List.foldl_cons]
    exact ih _ (incrementalStep_nodup acc w h)

theorem fold_lookup (p : List Char) :
    ∀ (files : List WorkspaceFileM) (acc : List (List Char × IndexEntryM) × Nat × Nat),
      (files.map WorkspaceFileM.path).Nodup →
      lookupA (files.foldl incrementalStep acc).1 p =
        (match files.find? (fun w => w.path == p) with
          | some w => candidateLookupSpec (lookupA acc.1 p) w
          | none => lookupA acc.1 p) := by
  intro files
  induction files with
  | nil =>
    intro acc h
    rfl
  | cons w rest ih =>
    intro acc hnd
    rw [List.map_cons, List.nodup_cons] at hnd
    rw [List.foldl_cons]
    by_cases hwp : w.path = p
    · have hfind : (w :: rest).find? (fun w => w.path == p) = some w :=
        List.find?_cons_of_pos rest (by simp [hwp])
      rw [hfind]
      have hrest : ∀ w2 ∈ rest, w2.path ≠ p := by
        intro w2 hw2 hc
        apply hnd.1
        rw [hwp]
        rw [← hc]
        exact List.mem_map_of_mem WorkspaceFileM.path hw2
      rw [fold_preserve p rest _ hrest]
      subst hwp
      exact incrementalStep_self acc w
    · have hfind : (w :: rest).find? (fun w => w.path == p) =
          rest.find? (fun w => w.path == p) :=
        List.find?_cons_of_neg rest (by simp [hwp])
      rw [hfind, ih _ hnd.2, incrementalStep_other acc w p hwp]

theorem fold_counters :
    ∀ (files : List WorkspaceFileM) (acc : List (List Char × IndexEntryM) × Nat × Nat),
      (files.map WorkspaceFileM.path).Nodup →
      (files.foldl incrementalStep acc).2.1 + (files.foldl incrementalStep acc).2.2 =
        acc.2.1 + acc.2.2 + files.countP (fun w => wantsReindex acc.1 w) := by
  intro files
  induction files with
  | nil =>
    intro acc h
    simp
  | cons w rest ih =>
    intro acc hnd
    rw [List.map_cons, List.nodup_cons] at hnd
    rw [List.foldl_cons, ih _ hnd.2]
    have hcong : ∀ w2 ∈ rest,
        wantsReindex (incrementalStep acc w).1 w2 ↔ wantsReindex acc.1 w2 := by
      intro w2 hw2
      have hne : w.path ≠ w2.path := by
        intro hc
        apply hnd.1
        rw [hc]
        exact List.mem_map_of_mem WorkspaceFileM.path hw2
      rw [wantsReindex, wantsReindex, incrementalStep_other acc w w2.path hne]
    have hcount : List.countP (fun w2 => wantsReindex (incrementalStep acc w).1 w2) rest =
        List.countP (fun w2 => wantsReindex acc.1 w2) rest :=
      List.countP_congr hcong
    rw [hcount, List.countP_cons]
    have hstep := incrementalStep_counters acc w
    by_cases hw : wantsReindex acc.1 w = true
    · rw [hw, if_pos rfl] at hstep
      rw [hstep]
      simp only [hw, if_true]
      omega
    · have hw2 : wantsReindex acc.1 w = false := by
        simpa using hw
      rw [hw2, if_neg (show ¬ (false = true) by simp)] at hstep
      rw [hstep]
      simp only [hw2, Bool.false_eq_true, if_false]
      omega

end TextSearcher

namespace TextSearcher

/-! ## C6: incremental update — main results -/

/-- C6 counterexample: with an empty index and a single oversized
candidate, `indexSingleFile` skips the file (nothing is added, updated or
removed — the index is unchanged), yet the `newFiles` counter was already
incremented, so the run persists the cache.  "Persisted iff at least one
file was added, updated, or removed" is therefore false on the code. -/
theorem claim6_counterexample : ¬ c6ClaimPersist [] [c6BigFile] := by
  unfold c6ClaimPersist
  decide

/-- C6 (amended): after an incremental update run over nodup candidates,
(1) each candidate path holds exactly what `candidateLookupSpec`
prescribes — indexed as new when absent, re-indexed when stale, in both
cases only if the file is not oversized and its read succeeds (otherwise
the old state is kept) — and every path not enumerated is removed; and
(2) the cache is persisted iff some candidate entered the new/updated
branch (even if the write was then skipped for size or read failure) or
some indexed path was not enumerated (removed). -/
theorem claim6_incremental_amended (idx0 : List (List Char × IndexEntryM))
    (files : List WorkspaceFileM)
    (hI : (idx0.map Prod.fst).Nodup)
    (hF : (files.map WorkspaceFileM.path).Nodup) :
    (∀ p, lookupA (performIncrementalUpdate idx0 files).index p =
      incrementalLookupSpec idx0 files p)
    ∧ ((performIncrementalUpdate idx0 files).savedToCache = true ↔
        ((∃ w ∈ files, wantsReindex idx0 w = true)
          ∨ ∃ pe ∈ idx0, ¬ ∃ w ∈ files, w.path = pe.1)) := by
  have hidx : (performIncrementalUpdate idx0 files).index =
      (files.foldl incrementalStep (idx0, 0, 0)).1.filter
        (fun pe => (files.map (fun w => w.path)).contains pe.1) := rfl
  have hsaved : (performIncrementalUpdate idx0 files).savedToCache =
      (decide (0 < (files.foldl incrementalStep (idx0, 0, 0)).2.1) ||
        decide (0 < (files.foldl incrementalStep (idx0, 0, 0)).2.2) ||
        decide (0 < ((files.foldl incrementalStep (idx0, 0, 0)).1.filter
          (fun pe => !((files.map (fun w => w.path)).contains pe.1))).length)) := rfl
  constructor
  · intro p
    rw [hidx, lookupA_filter_key, incrementalLookupSpec]
    by_cases hc : ((files.map (fun w => w.path)).contains p) = true
    · rw [if_pos hc, fold_lookup p files _ hF]
      cases hf : files.find? (fun w => w.path == p) with
      | some w => rfl
      | none =>
        exfalso
        rw [List.find?_eq_none] at hf
        rw [List.contains_iff_exists_mem_beq] at hc
        obtain ⟨a, ha, hab⟩ := hc
        obtain ⟨w, hw, rfl⟩ := List.mem_map.mp ha
        apply hf w hw
        have : p = w.path := by simpa using hab
        simp [this]
    · rw [if_neg hc]
      cases hf : files.find? (fun w => w.path == p) with
      | some w =>
        exfalso
        have hw := List.mem_of_find?_eq_some hf
        have hwp : w.path = p := by simpa using List.find?_some hf
        apply hc
        rw [List.contains_iff_exists_mem_beq]
        refine ⟨w.path, List.mem_map_of_mem (fun w => w.path) hw, by simp [hwp]⟩
      | none => rfl
  · rw [hsaved]
    simp only [Bool.or_eq_true, decide_eq_true_eq]
    have hcnt : (files.foldl incrementalStep (idx0, 0, 0)).2.1 +
        (files.foldl incrementalStep (idx0, 0, 0)).2.2 =
        0 + 0 + files.countP (fun w => wantsReindex idx0 w) :=
      fold_counters files (idx0, 0, 0) hF
    have h12 : (0 < (files.foldl incrementalStep (idx0, 0, 0)).2.1 ∨
        0 < (files.foldl incrementalStep (idx0, 0, 0)).2.2) ↔
        ∃ w ∈ files, wantsReindex idx0 w = true := by
      constructor
      · intro h
        have hpos : 0 < List.countP (fun w => wantsReindex idx0 w) files := by
          omega
        obtain ⟨w, hw, hwr⟩ := List.countP_pos_iff.mp hpos
        exact ⟨w, hw, hwr⟩
      · rintro ⟨w, hw, hwr⟩
        have hpos : 0 < List.countP (fun w => wantsReindex idx0 w) files :=
          List.countP_pos_iff.mpr ⟨w, hw, hwr⟩
        omega
    have h3 : (0 < ((files.foldl incrementalStep (idx0, 0, 0)).1.filter
        (fun pe => !((files.map (fun w => w.path)).contains pe.1))).length) ↔
        ∃ pe ∈ idx0, ¬ ∃ w ∈ files, w.path = pe.1 := by
      rw [← List.countP_eq_length_filter]
      constructor
      · intro hpos
        obtain ⟨pe, hpe, hnc⟩ := List.countP_pos_iff.mp hpos
        have hnc2 : ((files.map (fun w => w.path)).contains pe.1) = false := by
          simpa using hnc
        have hnotin : ∀ w ∈ files, w.path ≠ pe.1 := by
          intro w hw hcw
          rw [Bool.eq_false_iff] at hnc2
          apply hnc2
          rw [List.contains_iff_exists_mem_beq]
          exact ⟨pe.1, by rw [← hcw]; exact List.mem_map_of_mem (fun w => w.path) hw, by simp⟩
        have hlook1 : lookupA (files.foldl incrementalStep (idx0, 0, 0)).1 pe.1 = some pe.2 :=
          mem_lookupA pe.1 pe.2 _ (fold_nodup files (idx0, 0, 0) hI) hpe
        rw [fold_preserve pe.1 files _ hnotin] at hlook1
        have hmem0 := lookupA_some_mem pe.1 pe.2 idx0 hlook1
        refine ⟨(pe.1, pe.2), hmem0, ?_⟩
        rintro ⟨w, hw, hwp⟩
        exact hnotin w hw hwp
      · rintro ⟨pe, hpe, hne⟩
        have hnotin : ∀ w ∈ files, w.path ≠ pe.1 := fun w hw hcw => hne ⟨w, hw, hcw⟩
        have hlook0 : lookupA idx0 pe.1 = some pe.2 := mem_lookupA pe.1 pe.2 idx0 hI hpe
        have hlook1 : lookupA (files.foldl incrementalStep (idx0, 0, 0)).1 pe.1 = some pe.2 := by
          rw [fold_preserve pe.1 files _ hnotin]
          exact hlook0
        have hmem1 := lookupA_some_mem pe.1 pe.2 _ hlook1
        apply List.countP_pos_iff.mpr
        refine ⟨(pe.1, pe.2), hmem1, ?_⟩
        simp only [Bool.not_eq_true']
        rw [Bool.eq_false_iff]
        intro hcw
        rw [List.contains_iff_exists_mem_beq] at hcw
        obtain ⟨a, ha, hab⟩ := hcw
        obtain ⟨w, hw, rfl⟩ := List.mem_map.mp ha
        exact hnotin w hw (eq_of_beq hab).symm
    exact or_congr h12 h3

/-- Witness for the amended C6 at the oversized-candidate instance. -/
theorem claim6_incremental_amended_witness :
    ((([] : List (List Char × IndexEntryM)).map Prod.fst).Nodup
      ∧ (([c6BigFile] : List WorkspaceFileM).map WorkspaceFileM.path).Nodup)
    ∧ lookupA (performIncrementalUpdate [] [c6BigFile]).index (("big.bin").toList) =
        incrementalLookupSpec [] [c6BigFile] (("big.bin").toList) :=
  ⟨⟨by decide, by decide⟩,
    (claim6_incremental_amended [] [c6BigFile] (by decide) (by decide)).1 (("big.bin").toList)⟩

end TextSearcher
